import Mathlib

/-!
Verification of the numeric scalar types of `graph/src/data/store/scalar.rs`:
the `BigInt` wrapper around an arbitrary-precision integer, the `BigDecimal`
wrapper around an exact decimal (mantissa and power-of-ten scale), the `Bytes`
blob, their conversions, normalization and stable-hash feeds.

`BigInt` is embedded as `Int` (the underlying big-integer library keeps a
canonical sign-and-magnitude value, so the mathematical integer is a faithful
state).  Byte strings are `List Nat` with entries below 256.  Fallible or
panicking operations return `Option` / `Except`, a `none` / `.error` marking
the fatal or recoverable failure path.
-/

/-- Little-endian base-`b` digit expansion, fuel-driven so that it unfolds by
structural recursion (the fuel argument only bounds the number of division
steps).  `radixLEAux b f n` equals `Nat.digits b n` whenever `n ≤ f`. -/
def radixLEAux (b : Nat) : Nat → Nat → List Nat
  | _, 0 => []
  | 0, _ + 1 => []
  | f + 1, n + 1 => (n + 1) % b :: radixLEAux b f ((n + 1) / b)

/-- Minimal little-endian base-`b` digits of `n` (empty for zero). -/
def radixLE (b n : Nat) : List Nat :=
  radixLEAux b n n

theorem radixLEAux_eq_digits (b : Nat) (hb : 2 ≤ b) :
    ∀ f n, n ≤ f → radixLEAux b f n = Nat.digits b n := by
  intro f
  induction f with
  | zero =>
    intro n hn
    interval_cases n
    simp [radixLEAux]
  | succ f ih =>
    intro n hn
    match n with
    | 0 => simp [radixLEAux]
    | n + 1 =>
      rw [radixLEAux, Nat.digits_def' (by omega : 1 < b) (Nat.succ_pos n), ih]
      have : (n + 1) / b < n + 1 := Nat.div_lt_self (Nat.succ_pos n) (by omega)
      omega

theorem radixLE_eq_digits (b n : Nat) (hb : 2 ≤ b) :
    radixLE b n = Nat.digits b n :=
  radixLEAux_eq_digits b hb n n le_rfl

/-- Fixed-width little-endian base-`b` digits: the minimal digits padded with
trailing zeros up to `len` entries. -/
def padRadixLE (b len n : Nat) : List Nat :=
  radixLE b n ++ List.replicate (len - (radixLE b n).length) 0

theorem ofDigits_replicate_zero (b k : Nat) :
    Nat.ofDigits b (List.replicate k 0) = 0 := by
  induction k with
  | zero => simp
  | succ k ih => simp [List.replicate_succ, Nat.ofDigits, ih]

theorem ofDigits_append_replicate_zero (b k : Nat) (l : List Nat) :
    Nat.ofDigits b (l ++ List.replicate k 0) = Nat.ofDigits b l := by
  induction l with
  | nil => simp [ofDigits_replicate_zero]
  | cons d l ih => simp [Nat.ofDigits, ih]

theorem ofDigits_padRadixLE (b len n : Nat) (hb : 2 ≤ b) :
    Nat.ofDigits b (padRadixLE b len n) = n := by
  rw [padRadixLE, ofDigits_append_replicate_zero, radixLE_eq_digits b n hb,
    Nat.ofDigits_digits]

theorem digits_length_le_iff (b n k : Nat) (hb : 2 ≤ b) :
    (Nat.digits b n).length ≤ k ↔ n < b ^ k := by
  constructor
  · intro hk
    calc n < b ^ (Nat.digits b n).length :=
          Nat.lt_base_pow_length_digits (by omega)
      _ ≤ b ^ k := Nat.pow_le_pow_right (by omega) hk
  · intro h
    by_contra hgt
    push_neg at hgt
    rcases Nat.eq_zero_or_pos n with rfl | hn
    · simp at hgt
    have hL : b ^ (Nat.digits b n).length ≤ b * n :=
      Nat.base_pow_length_digits_le b n (by omega) (by omega)
    have hL1 : (Nat.digits b n).length = ((Nat.digits b n).length - 1) + 1 := by
      omega
    rw [hL1, pow_succ] at hL
    have hstep : b ^ ((Nat.digits b n).length - 1) ≤ n :=
      Nat.le_of_mul_le_mul_right (by linarith [hL] :
        b ^ ((Nat.digits b n).length - 1) * b ≤ n * b) (by omega : 0 < b)
    have hmono : b ^ k ≤ b ^ ((Nat.digits b n).length - 1) :=
      Nat.pow_le_pow_right (by omega) (by omega)
    omega

theorem padRadixLE_length (b len n : Nat) (hb : 2 ≤ b) (h : n < b ^ len) :
    (padRadixLE b len n).length = len := by
  have hlen : (Nat.digits b n).length ≤ len :=
    (digits_length_le_iff b n len hb).mpr h
  rw [padRadixLE, List.length_append, List.length_replicate,
    radixLE_eq_digits b n hb]
  omega

theorem padRadixLE_lt (b len n : Nat) (hb : 2 ≤ b) :
    ∀ d ∈ padRadixLE b len n, d < b := by
  intro d hd
  rw [padRadixLE, List.mem_append] at hd
  rcases hd with hd | hd
  · rw [radixLE_eq_digits b n hb] at hd
    exact Nat.digits_lt_base (by omega) hd
  · have := List.eq_of_mem_replicate hd
    omega

/-- Strip trailing zero entries from a byte list. -/
def trimZeros (l : List Nat) : List Nat :=
  (l.reverse.dropWhile (fun b => b == 0)).reverse

theorem trimZeros_append_zeros (l : List Nat) (k : Nat) :
    trimZeros (l ++ List.replicate k 0) = trimZeros l := by
  rw [trimZeros, trimZeros, List.reverse_append, List.reverse_replicate]
  congr 1
  induction k with
  | zero => simp
  | succ k ih => simp [List.replicate_succ, ih]

theorem trimZeros_of_getLast_ne_zero (l : List Nat) (h : l.getLastD 1 ≠ 0) :
    trimZeros l = l := by
  induction l using List.reverseRecOn with
  | nil => simp [trimZeros]
  | append_singleton l d _ =>
    rw [List.getLastD_concat] at h
    rw [trimZeros, List.reverse_append]
    simp only [List.reverse_cons, List.reverse_nil, List.nil_append,
      List.singleton_append, List.dropWhile_cons]
    simp only [beq_iff_eq, h, if_false]
    simp

theorem trimZeros_padRadixLE (b len n : Nat) :
    trimZeros (padRadixLE b len n) = trimZeros (radixLE b n) := by
  rw [padRadixLE, trimZeros_append_zeros]

theorem trimZeros_radixLE (b n : Nat) (hb : 2 ≤ b) :
    trimZeros (radixLE b n) = radixLE b n := by
  rcases Nat.eq_zero_or_pos n with rfl | hn
  · simp [radixLE, radixLEAux, trimZeros]
  · apply trimZeros_of_getLast_ne_zero
    rw [radixLE_eq_digits b n hb]
    have hne : Nat.digits b n ≠ [] := by
      rw [Nat.digits_ne_nil_iff_ne_zero]
      omega
    rw [List.getLastD_eq_getLast? , List.getLast?_eq_getLast _ hne]
    exact Nat.getLast_digit_ne_zero b (by omega)

/-! ## `BigInt` (`scalar.rs`): wrapper around the big-integer library

Embedded as `Int`: the library value is a canonical sign-and-magnitude pair,
so the mathematical integer determines the state.  The byte-level accessors
below mirror the library functions the wrapper calls. -/

/-- `num_bigint::Sign`. -/
inductive BigIntSign where
  | Minus
  | NoSign
  | Plus
deriving DecidableEq, Repr

/-- The sign of the stored value. -/
def intSign (v : Int) : BigIntSign :=
  if v < 0 then .Minus else if v = 0 then .NoSign else .Plus

/-- Minimal little-endian magnitude bytes (the big-integer library's digit
vector in base 256; empty only for zero, which the accessors special-case). -/
def natToBytesLE (n : Nat) : List Nat :=
  radixLE 256 n

/-- The magnitude byte vector returned by the library's `to_bytes_le`: the
single byte `[0]` for the value zero, else the minimal little-endian bytes. -/
def magBytesLE (v : Int) : List Nat :=
  if v = 0 then [0] else natToBytesLE v.natAbs

/-- `BigInt::to_bytes_le`: sign plus little-endian magnitude bytes. -/
def BigInt.to_bytes_le (v : Int) : BigIntSign × List Nat :=
  (intSign v, magBytesLE v)

/-- `BigInt::from_unsigned_bytes_le`: all bytes are non-negative magnitude. -/
def BigInt.from_unsigned_bytes_le (bytes : List Nat) : Int :=
  ((Nat.ofDigits 256 bytes : Nat) : Int)

/-- `BigInt::from_signed_bytes_le`: two's-complement little-endian; the high
bit of the final byte is the sign (empty input is zero). -/
def BigInt.from_signed_bytes_le (bytes : List Nat) : Int :=
  if 128 ≤ bytes.getLastD 0 then
    ((Nat.ofDigits 256 bytes : Nat) : Int) - (256 : Int) ^ bytes.length
  else
    ((Nat.ofDigits 256 bytes : Nat) : Int)

/-- Byte-wise two's complement of a little-endian byte vector, as performed by
the big-integer library on the magnitude bytes of a negative value: the result
represents `256^len − value` in exactly `len` bytes. -/
def twosComplementLE (bytes : List Nat) : List Nat :=
  padRadixLE 256 bytes.length
    ((256 ^ bytes.length - Nat.ofDigits 256 bytes % 256 ^ bytes.length) %
      256 ^ bytes.length)

/-- Intermediate step of the library's `to_signed_bytes_le`: the magnitude
bytes, extended by a zero byte when the top bit is occupied — except for the
exact `-2^(8k-1)` pattern (last byte `0x80`, all earlier bytes zero, negative
sign), which fits without extension. -/
def signExtendedMag (v : Int) : List Nat :=
  let mag := magBytesLE v
  if 0x7f < mag.getLastD 0 ∧
      ¬(mag.getLastD 0 = 0x80 ∧ mag.dropLast.all (fun b => b == 0) ∧ v < 0)
  then mag ++ [0]
  else mag

/-- `BigInt::to_signed_bytes_le` (library): extended magnitude bytes,
two's-complemented when negative. -/
def BigInt.to_signed_bytes_le (v : Int) : List Nat :=
  if v < 0 then twosComplementLE (signExtendedMag v) else signExtendedMag v

/-- `U256::from_little_endian`: asserts at most 32 bytes (`none` models the
assertion failure), then reads the little-endian value. -/
def U256.from_little_endian (bytes : List Nat) : Option Nat :=
  if bytes.length ≤ 32 then some (Nat.ofDigits 256 bytes) else none

/-- `U256::to_little_endian` into a 32-byte buffer (a `U256` value is below
`2^256`; the reduction makes the function total on `Nat`). -/
def u256ToLittleEndianBytes (n : Nat) : List Nat :=
  padRadixLE 256 32 (n % 2 ^ 256)

/-- `BigInt::from_unsigned_u256`. -/
def BigInt.from_unsigned_u256 (n : Nat) : Int :=
  BigInt.from_unsigned_bytes_le (u256ToLittleEndianBytes n)

/-- `BigInt::from_signed_u256`. -/
def BigInt.from_signed_u256 (n : Nat) : Int :=
  BigInt.from_signed_bytes_le (u256ToLittleEndianBytes n)

/-- `BigInt::to_signed_u256`: negative values assert a 32-byte bound and are
sign-extended with `0xff` filler; non-negative values go straight to
`U256::from_little_endian` (whose own length assertion fires out of range).
`none` models the fatal assertion. -/
def BigInt.to_signed_u256 (v : Int) : Option Nat :=
  let bytes := BigInt.to_signed_bytes_le v
  if v < 0 then
    if bytes.length ≤ 32 then
      U256.from_little_endian (bytes ++ List.replicate (32 - bytes.length) 255)
    else none
  else
    U256.from_little_endian bytes

/-- `BigInt::to_unsigned_u256`: asserts the sign is `NoSign` or `Plus`
(`none` models the fatal assertion on a negative value). -/
def BigInt.to_unsigned_u256 (v : Int) : Option Nat :=
  let sb := BigInt.to_bytes_le v
  if sb.1 = BigIntSign.NoSign ∨ sb.1 = BigIntSign.Plus then
    U256.from_little_endian sb.2
  else none

/-- `BigIntOutOfRangeError` of `scalar.rs`. -/
inductive BigIntOutOfRangeError where
  | Negative
  | Overflow
deriving DecidableEq, Repr

/-- The byte loop of `TryFrom<&BigInt> for u64`: `n = (b << shift) | n` with
the shift distance growing by 8 per byte. -/
def u64FromLeBytesLoop : List Nat → Nat → Nat → Nat
  | [], _, n => n
  | b :: bs, shift, n => u64FromLeBytesLoop bs (shift + 8) ((b <<< shift) ||| n)

/-- `TryFrom<&BigInt> for u64`: `Negative` on a minus sign, `Overflow` past
8 magnitude bytes, otherwise the little-endian value. -/
def u64TryFromBigInt (v : Int) : Except BigIntOutOfRangeError Nat :=
  let sb := BigInt.to_bytes_le v
  if sb.1 = BigIntSign.Minus then .error .Negative
  else if 8 < sb.2.length then .error .Overflow
  else .ok (u64FromLeBytesLoop sb.2 0 0)

/-- `BigInt::to_u64` (deprecated in the source): unwraps the `TryFrom`
result; `none` models the unwrap panic. -/
def BigInt.to_u64 (v : Int) : Option Nat :=
  (u64TryFromBigInt v).toOption

/-- `From<U64> for BigInt` via `n.as_u64()` (unsigned interpretation). -/
def BigInt.fromU64 (n : Nat) : Int :=
  (n : Int)

/-- `Div for BigInt`: the explicit zero-divisor check panics (`none`);
otherwise the library quotient truncates toward zero. -/
def BigInt.div (a b : Int) : Option Int :=
  if b = 0 then none else some (a.tdiv b)

/-- `Rem for BigInt`: remainder paired with the truncating quotient (sign of
the dividend).  The source has no explicit check: `none` models the
big-integer library's own divide-by-zero panic. -/
def BigInt.rem (a b : Int) : Option Int :=
  if b = 0 then none else some (a.tmod b)

/-! ## Byte-vector arithmetic lemmas -/

theorem ofDigits_lt_256_pow (l : List Nat) (h : ∀ d ∈ l, d < 256) :
    Nat.ofDigits 256 l < 256 ^ l.length :=
  Nat.ofDigits_lt_base_pow_length (by norm_num) h

theorem ofDigits_singleton (b d : Nat) : Nat.ofDigits b [d] = d := by
  simp [Nat.ofDigits]

theorem ofDigits_concat_bounds (l : List Nat) (d : Nat)
    (h : ∀ x ∈ l, x < 256) :
    d * 256 ^ l.length ≤ Nat.ofDigits 256 (l ++ [d]) ∧
      Nat.ofDigits 256 (l ++ [d]) < (d + 1) * 256 ^ l.length := by
  have hc : (Nat.ofDigits 256 (l ++ [d]) : ℕ) =
      Nat.ofDigits 256 l + 256 ^ l.length * d := by
    rw [Nat.ofDigits_append, ofDigits_singleton]
  have hlt := ofDigits_lt_256_pow l h
  constructor
  · rw [hc, Nat.mul_comm]
    exact Nat.le_add_left _ _
  · rw [hc]
    calc Nat.ofDigits 256 l + 256 ^ l.length * d
        < 256 ^ l.length + 256 ^ l.length * d := Nat.add_lt_add_right hlt _
      _ = (d + 1) * 256 ^ l.length := by ring

theorem ofDigits_getLastD_bounds (l : List Nat) (hne : l ≠ [])
    (h : ∀ x ∈ l, x < 256) :
    l.getLastD 0 * 256 ^ (l.length - 1) ≤ Nat.ofDigits 256 l ∧
      Nat.ofDigits 256 l < (l.getLastD 0 + 1) * 256 ^ (l.length - 1) := by
  induction l using List.reverseRecOn with
  | nil => exact absurd rfl hne
  | append_singleton l d _ =>
    have hb := ofDigits_concat_bounds l d (fun x hx => h x (by simp [hx]))
    rw [List.getLastD_concat]
    have hlen : (l ++ [d]).length - 1 = l.length := by simp
    rw [hlen]
    exact hb

theorem getLastD_ge_128_iff (l : List Nat) (hne : l ≠ [])
    (h : ∀ x ∈ l, x < 256) :
    128 ≤ l.getLastD 0 ↔ 128 * 256 ^ (l.length - 1) ≤ Nat.ofDigits 256 l := by
  obtain ⟨hlo, hhi⟩ := ofDigits_getLastD_bounds l hne h
  constructor
  · intro hd
    calc 128 * 256 ^ (l.length - 1) ≤ l.getLastD 0 * 256 ^ (l.length - 1) :=
          Nat.mul_le_mul_right _ hd
      _ ≤ _ := hlo
  · intro hval
    by_contra hd
    push_neg at hd
    have : (l.getLastD 0 + 1) * 256 ^ (l.length - 1) ≤
        128 * 256 ^ (l.length - 1) := Nat.mul_le_mul_right _ (by omega)
    omega

theorem ofDigits_eq_zero_iff (l : List Nat) :
    Nat.ofDigits 256 l = 0 ↔ ∀ x ∈ l, x = 0 := by
  induction l with
  | nil => simp
  | cons d l ih =>
    rw [Nat.ofDigits]
    push_cast
    constructor
    · intro h
      have hd : d = 0 := by omega
      have hl : Nat.ofDigits 256 l = 0 := by omega
      intro x hx
      rcases List.mem_cons.mp hx with rfl | hx
      · exact hd
      · exact ih.mp hl x hx
    · intro h
      have hd : d = 0 := h d (by simp)
      have hl : Nat.ofDigits 256 l = 0 := ih.mpr fun x hx => h x (by simp [hx])
      omega

theorem ofDigits_replicate_255 (k : Nat) :
    Nat.ofDigits 256 (List.replicate k 255) = 256 ^ k - 1 := by
  induction k with
  | zero => simp
  | succ k ih =>
    rw [List.replicate_succ, Nat.ofDigits, ih]
    have : 1 ≤ 256 ^ k := Nat.one_le_pow _ _ (by norm_num)
    push_cast
    rw [pow_succ]
    omega

/-! ## Magnitude-byte lemmas -/

theorem magBytesLE_ne_nil (v : Int) : magBytesLE v ≠ [] := by
  rw [magBytesLE]
  split
  · simp
  · rw [natToBytesLE, radixLE_eq_digits _ _ (by norm_num),
      Nat.digits_ne_nil_iff_ne_zero]
    omega

theorem magBytesLE_lt (v : Int) : ∀ x ∈ magBytesLE v, x < 256 := by
  rw [magBytesLE]
  split
  · simp
  · rw [natToBytesLE, radixLE_eq_digits _ _ (by norm_num)]
    intro x hx
    exact Nat.digits_lt_base (by norm_num) hx

theorem ofDigits_magBytesLE (v : Int) :
    Nat.ofDigits 256 (magBytesLE v) = v.natAbs := by
  rw [magBytesLE]
  split
  · rename_i h
    subst h
    simp [ofDigits_singleton]
  · rw [natToBytesLE, radixLE_eq_digits _ _ (by norm_num), Nat.ofDigits_digits]

theorem magBytesLE_getLastD_ne_zero (v : Int) (hv : v ≠ 0) :
    (magBytesLE v).getLastD 0 ≠ 0 := by
  rw [magBytesLE, if_neg hv, natToBytesLE, radixLE_eq_digits _ _ (by norm_num)]
  have hne : Nat.digits 256 v.natAbs ≠ [] := by
    rw [Nat.digits_ne_nil_iff_ne_zero]
    omega
  rw [List.getLastD_eq_getLast?, List.getLast?_eq_getLast _ hne]
  exact Nat.getLast_digit_ne_zero 256 (by omega)

theorem getLastD_concat_self (l : List Nat) (h : l ≠ []) :
    l.dropLast ++ [l.getLastD 0] = l := by
  rw [List.getLastD_eq_getLast?, List.getLast?_eq_getLast _ h, Option.getD_some]
  exact List.dropLast_append_getLast h

theorem signExtendedMag_ne_nil (v : Int) : signExtendedMag v ≠ [] := by
  rw [signExtendedMag]
  split
  · simp
  · exact magBytesLE_ne_nil v

theorem signExtendedMag_lt (v : Int) : ∀ x ∈ signExtendedMag v, x < 256 := by
  rw [signExtendedMag]
  split
  · intro x hx
    rcases List.mem_append.mp hx with hx | hx
    · exact magBytesLE_lt v x hx
    · simp at hx
      omega
  · exact magBytesLE_lt v

theorem ofDigits_signExtendedMag (v : Int) :
    Nat.ofDigits 256 (signExtendedMag v) = v.natAbs := by
  rw [signExtendedMag]
  split
  · rw [Nat.ofDigits_append, ofDigits_singleton]
    simp [ofDigits_magBytesLE]
  · exact ofDigits_magBytesLE v

theorem signExtendedMag_getLastD_lt_128 (v : Int) (hv : 0 ≤ v) :
    (signExtendedMag v).getLastD 0 < 128 := by
  rw [signExtendedMag]
  split
  · rw [List.getLastD_concat]
    norm_num
  · rename_i hcond
    push_neg at hcond
    by_contra hd
    push_neg at hd
    have := hcond (by omega)
    omega

theorem signExtendedMag_natAbs_le (v : Int) (hv : v < 0) :
    v.natAbs ≤ 128 * 256 ^ ((signExtendedMag v).length - 1) := by
  have hmne := magBytesLE_ne_nil v
  have hmlt := magBytesLE_lt v
  have hmval := ofDigits_magBytesLE v
  rw [signExtendedMag]
  split
  · have hlen : (magBytesLE v ++ [0]).length - 1 = (magBytesLE v).length := by
      simp
    rw [hlen]
    have h1 : v.natAbs < 256 ^ (magBytesLE v).length := by
      rw [← hmval]
      exact ofDigits_lt_256_pow _ hmlt
    have h2 : (1 : Nat) ≤ 128 := by norm_num
    calc v.natAbs ≤ 256 ^ (magBytesLE v).length := by omega
      _ ≤ 128 * 256 ^ (magBytesLE v).length := by
          nlinarith [Nat.one_le_pow (magBytesLE v).length 256
            (by norm_num : 0 < 256)]
  · rename_i hcond
    push_neg at hcond
    by_cases hd : 0x7f < (magBytesLE v).getLastD 0
    · obtain ⟨hd80, hzeros, _⟩ := hcond hd
      have hz : Nat.ofDigits 256 (magBytesLE v).dropLast = 0 := by
        rw [ofDigits_eq_zero_iff]
        intro x hx
        have := List.all_eq_true.mp hzeros x hx
        simpa using this
      have hsplitEq : Nat.ofDigits 256 (magBytesLE v) =
          Nat.ofDigits 256 ((magBytesLE v).dropLast ++
            [(magBytesLE v).getLastD 0]) := by
        rw [getLastD_concat_self _ hmne]
      rw [Nat.ofDigits_append, hz, hd80, ofDigits_singleton] at hsplitEq
      have hlen : (magBytesLE v).dropLast.length = (magBytesLE v).length - 1 :=
        List.length_dropLast _
      rw [← hmval, hsplitEq, hlen, Nat.zero_add, Nat.mul_comm]
    · push_neg at hd
      have hb := (ofDigits_getLastD_bounds (magBytesLE v) hmne hmlt).2
      rw [hmval] at hb
      exact le_of_lt (calc v.natAbs
          < ((magBytesLE v).getLastD 0 + 1) * 256 ^ ((magBytesLE v).length - 1) :=
            hb
        _ ≤ 128 * 256 ^ ((magBytesLE v).length - 1) :=
            Nat.mul_le_mul_right _ (by omega))

theorem twosComplementLE_spec (l : List Nat) (hne : l ≠ [])
    (hv1 : 1 ≤ Nat.ofDigits 256 l)
    (hv2 : Nat.ofDigits 256 l ≤ 128 * 256 ^ (l.length - 1))
    (hlt : ∀ x ∈ l, x < 256) :
    (twosComplementLE l).length = l.length ∧
      Nat.ofDigits 256 (twosComplementLE l) =
        256 ^ l.length - Nat.ofDigits 256 l ∧
      (∀ x ∈ twosComplementLE l, x < 256) ∧
      128 ≤ (twosComplementLE l).getLastD 0 := by
  have hm256 : Nat.ofDigits 256 l < 256 ^ l.length := ofDigits_lt_256_pow l hlt
  have hmod : Nat.ofDigits 256 l % 256 ^ l.length = Nat.ofDigits 256 l :=
    Nat.mod_eq_of_lt hm256
  have ht : (256 ^ l.length - Nat.ofDigits 256 l % 256 ^ l.length) %
      256 ^ l.length = 256 ^ l.length - Nat.ofDigits 256 l := by
    rw [hmod]
    exact Nat.mod_eq_of_lt (by omega)
  have hL1 : 1 ≤ l.length := by
    rcases l with _ | ⟨d, l⟩
    · exact absurd rfl hne
    · simp
  have hpow : (256 : Nat) ^ l.length = 256 * 256 ^ (l.length - 1) := by
    conv_lhs => rw [show l.length = (l.length - 1) + 1 by omega]
    rw [pow_succ]
    ring
  have hlen : (twosComplementLE l).length = l.length := by
    rw [twosComplementLE, ht]
    exact padRadixLE_length _ _ _ (by norm_num) (by omega)
  have hval : Nat.ofDigits 256 (twosComplementLE l) =
      256 ^ l.length - Nat.ofDigits 256 l := by
    rw [twosComplementLE, ht]
    exact ofDigits_padRadixLE _ _ _ (by norm_num)
  refine ⟨hlen, hval, ?_, ?_⟩
  · rw [twosComplementLE, ht]
    exact padRadixLE_lt _ _ _ (by norm_num)
  · rw [getLastD_ge_128_iff _ (by rw [← List.length_pos_iff_ne_nil]; omega)
      (by rw [twosComplementLE, ht]; exact padRadixLE_lt _ _ _ (by norm_num)),
      hval, hlen]
    rw [hpow] at hm256 ⊢
    omega

theorem from_signed_to_signed_bytes (v : Int) :
    BigInt.from_signed_bytes_le (BigInt.to_signed_bytes_le v) = v := by
  rw [BigInt.to_signed_bytes_le]
  by_cases hv : v < 0
  · rw [if_pos hv]
    have hne := signExtendedMag_ne_nil v
    have hlt := signExtendedMag_lt v
    have hval := ofDigits_signExtendedMag v
    have h1 : 1 ≤ Nat.ofDigits 256 (signExtendedMag v) := by
      rw [hval]
      omega
    obtain ⟨hLen, hVal, _, hLast⟩ := twosComplementLE_spec (signExtendedMag v)
      hne h1 (hval ▸ signExtendedMag_natAbs_le v hv) hlt
    rw [BigInt.from_signed_bytes_le, if_pos (by omega : 128 ≤
      (twosComplementLE (signExtendedMag v)).getLastD 0)]
    have hm256 : v.natAbs < 256 ^ (signExtendedMag v).length := by
      rw [← hval]
      exact ofDigits_lt_256_pow _ hlt
    rw [hVal, hLen, hval, Nat.cast_sub (le_of_lt hm256)]
    have habs : ((v.natAbs : Int)) = -v := by omega
    rw [habs]
    push_cast
    ring
  · rw [if_neg hv]
    have hlast := signExtendedMag_getLastD_lt_128 v (by omega)
    rw [BigInt.from_signed_bytes_le, if_neg (by omega), ofDigits_signExtendedMag]
    omega

theorem digits_128_shifted (k : Nat) (hk : 1 ≤ k) :
    Nat.digits 256 (128 * 256 ^ (k - 1)) = List.replicate (k - 1) 0 ++ [128] := by
  have hof : Nat.ofDigits 256 (List.replicate (k - 1) 0 ++ [128]) =
      128 * 256 ^ (k - 1) := by
    rw [Nat.ofDigits_append, ofDigits_replicate_zero, ofDigits_singleton,
      List.length_replicate]
    ring
  rw [← hof]
  apply Nat.digits_ofDigits 256 (by norm_num)
  · intro x hx
    rcases List.mem_append.mp hx with hx | hx
    · have := List.eq_of_mem_replicate hx
      omega
    · simp at hx
      omega
  · intro h
    rw [List.getLast_concat]
    norm_num

theorem to_signed_bytes_le_length_eq (v : Int) :
    (BigInt.to_signed_bytes_le v).length = (signExtendedMag v).length := by
  rw [BigInt.to_signed_bytes_le]
  split
  · rename_i hv
    have hval := ofDigits_signExtendedMag v
    exact (twosComplementLE_spec (signExtendedMag v) (signExtendedMag_ne_nil v)
      (by rw [hval]; omega) (hval ▸ signExtendedMag_natAbs_le v hv)
      (signExtendedMag_lt v)).1
  · rfl

theorem signExtendedMag_length_pos (v : Int) : 1 ≤ (signExtendedMag v).length := by
  have := signExtendedMag_ne_nil v
  rw [← List.length_pos] at this
  omega

theorem natCast_128_mul_pow (k : Nat) :
    ((128 * 256 ^ (k - 1) : Nat) : Int) = 128 * 256 ^ (k - 1) := by
  push_cast
  ring

theorem to_signed_length_bound (v : Int) (k : Nat) (hk : 1 ≤ k)
    (h : (BigInt.to_signed_bytes_le v).length ≤ k) :
    -(128 * 256 ^ (k - 1) : Int) ≤ v ∧ v < 128 * 256 ^ (k - 1) := by
  rw [to_signed_bytes_le_length_eq] at h
  have hE1 := signExtendedMag_length_pos v
  have hmono : (256 : Nat) ^ ((signExtendedMag v).length - 1) ≤
      256 ^ (k - 1) := Nat.pow_le_pow_right (by norm_num) (by omega)
  have hcast := natCast_128_mul_pow k
  by_cases hv : v < 0
  · have hb := signExtendedMag_natAbs_le v hv
    have hB : v.natAbs ≤ 128 * 256 ^ (k - 1) :=
      le_trans hb (Nat.mul_le_mul_left _ hmono)
    omega
  · have hlast := signExtendedMag_getLastD_lt_128 v (by omega)
    have hb := (ofDigits_getLastD_bounds (signExtendedMag v)
      (signExtendedMag_ne_nil v) (signExtendedMag_lt v)).2
    rw [ofDigits_signExtendedMag] at hb
    have hB : v.natAbs < 128 * 256 ^ (k - 1) := by
      calc v.natAbs
          < ((signExtendedMag v).getLastD 0 + 1) *
              256 ^ ((signExtendedMag v).length - 1) := hb
        _ ≤ 128 * 256 ^ ((signExtendedMag v).length - 1) :=
            Nat.mul_le_mul_right _ (by omega)
        _ ≤ 128 * 256 ^ (k - 1) := Nat.mul_le_mul_left _ hmono
    omega

theorem signExtendedMag_zero : signExtendedMag 0 = [0] := by
  decide

theorem to_signed_length_le (v : Int) (k : Nat) (hk : 1 ≤ k)
    (hlo : -(128 * 256 ^ (k - 1) : Int) ≤ v) (hhi : v < 128 * 256 ^ (k - 1)) :
    (BigInt.to_signed_bytes_le v).length ≤ k := by
  rw [to_signed_bytes_le_length_eq]
  by_cases hv0 : v = 0
  · rw [hv0, signExtendedMag_zero]
    simpa using hk
  have hcast := natCast_128_mul_pow k
  have hm : v.natAbs ≤ 128 * 256 ^ (k - 1) := by omega
  have hmlt : v.natAbs < 256 ^ k := by
    have hsplit : (256 : Nat) ^ k = 256 * 256 ^ (k - 1) := by
      conv_lhs => rw [show k = (k - 1) + 1 by omega]
      rw [pow_succ]
      ring
    have hpos : (1 : Nat) ≤ 256 ^ (k - 1) := Nat.one_le_pow _ _ (by norm_num)
    omega
  have hL : (Nat.digits 256 v.natAbs).length ≤ k :=
    (digits_length_le_iff 256 v.natAbs k (by norm_num)).mpr hmlt
  have hmag : magBytesLE v = Nat.digits 256 v.natAbs := by
    rw [magBytesLE, if_neg hv0, natToBytesLE, radixLE_eq_digits _ _ (by norm_num)]
  rw [signExtendedMag]
  split
  · rename_i hcond
    rw [List.length_append, List.length_singleton]
    by_contra hgt
    push_neg at hgt
    have hLk : (magBytesLE v).length = k := by
      have hL2 := hL
      rw [← hmag] at hL2
      omega
    obtain ⟨hd, hnotexc⟩ := hcond
    have hge := (getLastD_ge_128_iff (magBytesLE v) (magBytesLE_ne_nil v)
      (magBytesLE_lt v)).mp (by omega)
    rw [ofDigits_magBytesLE, hLk] at hge
    by_cases hv : v < 0
    · have heq : v.natAbs = 128 * 256 ^ (k - 1) := le_antisymm hm hge
      have hdig : Nat.digits 256 v.natAbs = List.replicate (k - 1) 0 ++ [128] := by
        rw [heq]
        exact digits_128_shifted k hk
      apply hnotexc
      refine ⟨?_, ?_, hv⟩
      · rw [hmag, hdig, List.getLastD_concat]
      · rw [hmag, hdig, List.dropLast_concat]
        rw [List.all_eq_true]
        intro x hx
        have := List.eq_of_mem_replicate hx
        simp [this]
    · have hcast2 : (128 * 256 ^ (k - 1) : Int) ≤ (v.natAbs : Int) := by
        rw [← natCast_128_mul_pow k]
        exact_mod_cast hge
      omega
  · rw [hmag]
    omega

theorem u64FromLeBytesLoop_eq :
    ∀ (bs : List Nat) (shift n : Nat), (∀ b ∈ bs, b < 256) → n < 2 ^ shift →
      u64FromLeBytesLoop bs shift n = n + 2 ^ shift * Nat.ofDigits 256 bs := by
  intro bs
  induction bs with
  | nil =>
    intro shift n _ _
    simp [u64FromLeBytesLoop]
  | cons b bs ih =>
    intro shift n hlt hn
    have hb : b < 256 := hlt b (by simp)
    have hstep : (b <<< shift) ||| n = 2 ^ shift * b + n := by
      rw [Nat.shiftLeft_eq, Nat.mul_comm b]
      exact (Nat.mul_add_lt_is_or hn b).symm
    have hacc : 2 ^ shift * b + n < 2 ^ (shift + 8) := by
      have h1 : 2 ^ shift * b + n < 2 ^ shift * b + 2 ^ shift := by omega
      have h2 : 2 ^ shift * b + 2 ^ shift = 2 ^ shift * (b + 1) := by ring
      have h3 : 2 ^ shift * (b + 1) ≤ 2 ^ shift * 256 :=
        Nat.mul_le_mul_left _ (by omega)
      have h4 : 2 ^ shift * 256 = 2 ^ (shift + 8) := by
        rw [pow_add]
        norm_num
      omega
    rw [u64FromLeBytesLoop, hstep, ih _ _ (fun x hx => hlt x (by simp [hx])) hacc]
    rw [Nat.ofDigits]
    push_cast
    rw [pow_add]
    ring

theorem magBytesLE_length_le_iff (v : Int) (k : Nat) (hk : 1 ≤ k) :
    (magBytesLE v).length ≤ k ↔ v.natAbs < 256 ^ k := by
  rw [magBytesLE]
  by_cases hv : v = 0
  · rw [if_pos hv, hv]
    simp only [List.length_singleton]
    constructor
    · intro _
      exact Nat.pos_pow_of_pos k (by norm_num)
    · intro _
      exact hk
  · rw [if_neg hv, natToBytesLE, radixLE_eq_digits _ _ (by norm_num)]
    exact digits_length_le_iff 256 v.natAbs k (by norm_num)

/-- `u64::try_from(&BigInt)` characterized on the mathematical value: negative
values fail `Negative`, values of 2^64 or more fail `Overflow`, and in-range
values convert exactly. -/
theorem u64TryFromBigInt_eq (v : Int) :
    u64TryFromBigInt v =
      if v < 0 then .error .Negative
      else if 2 ^ 64 ≤ v then .error .Overflow
      else .ok v.toNat := by
  rw [u64TryFromBigInt, BigInt.to_bytes_le]
  simp only
  by_cases hv : v < 0
  · rw [if_pos hv, if_pos (by rw [intSign, if_pos hv])]
  · have hsign : ¬(intSign v = BigIntSign.Minus) := by
      rw [intSign, if_neg hv]
      split <;> simp
    rw [if_neg hv, if_neg hsign]
    have hlen := magBytesLE_length_le_iff v 8 (by norm_num)
    by_cases hov : (2 : Int) ^ 64 ≤ v
    · rw [if_pos hov, if_pos]
      by_contra hle
      push_neg at hle
      have h1 := hlen.mp hle
      have h2 : (v.natAbs : Int) < ((256 ^ 8 : Nat) : Int) := by
        exact_mod_cast h1
      have h3 : (((256 : Nat) ^ 8 : Nat) : Int) = 2 ^ 64 := by norm_num
      omega
    · rw [if_neg hov]
      have hnot : ¬(8 < (magBytesLE v).length) := by
        rw [not_lt, hlen]
        have h3 : ((256 : Nat) ^ 8) = 18446744073709551616 := by norm_num
        have h4 : (2 : Int) ^ 64 = 18446744073709551616 := by norm_num
        omega
      rw [if_neg hnot, u64FromLeBytesLoop_eq _ 0 0 (magBytesLE_lt v)
        (by norm_num), ofDigits_magBytesLE]
      congr 1
      omega

theorem ofDigits_append_replicate_255 (l : List Nat) (j : Nat) :
    Nat.ofDigits 256 (l ++ List.replicate j 255) =
      Nat.ofDigits 256 l + 256 ^ l.length * (256 ^ j - 1) := by
  rw [Nat.ofDigits_append, ofDigits_replicate_255]

theorem to_signed_bytes_le_val_neg (v : Int) (hv : v < 0) :
    Nat.ofDigits 256 (BigInt.to_signed_bytes_le v) =
      256 ^ (BigInt.to_signed_bytes_le v).length - v.natAbs := by
  have hval := ofDigits_signExtendedMag v
  obtain ⟨hLen, hVal, _, _⟩ := twosComplementLE_spec (signExtendedMag v)
    (signExtendedMag_ne_nil v) (by rw [hval]; omega)
    (hval ▸ signExtendedMag_natAbs_le v hv) (signExtendedMag_lt v)
  rw [BigInt.to_signed_bytes_le, if_pos hv, hVal, hLen, hval]

theorem to_signed_bytes_le_val_nonneg (v : Int) (hv : 0 ≤ v) :
    Nat.ofDigits 256 (BigInt.to_signed_bytes_le v) = v.natAbs := by
  rw [BigInt.to_signed_bytes_le, if_neg (by omega), ofDigits_signExtendedMag]

theorem natAbs_le_pow_len (v : Int) (hv : v < 0) :
    v.natAbs ≤ 256 ^ (BigInt.to_signed_bytes_le v).length := by
  have hb := signExtendedMag_natAbs_le v hv
  have hE := to_signed_bytes_le_length_eq v
  have hE1 := signExtendedMag_length_pos v
  have hpow : (256 : Nat) ^ (signExtendedMag v).length =
      256 ^ ((signExtendedMag v).length - 1) * 256 := by
    conv_lhs => rw [show (signExtendedMag v).length =
      ((signExtendedMag v).length - 1) + 1 by omega]
    rw [pow_succ]
  rw [hE, hpow]
  omega

/-- `BigInt::to_signed_u256` on a negative in-range value: defined, equal to
the two's-complement residue `v + 2^256`. -/
theorem to_signed_u256_neg (v : Int) (hv : v < 0) (hlo : -(2 ^ 255 : Int) ≤ v) :
    BigInt.to_signed_u256 v = some ((v + 2 ^ 256).toNat) := by
  have h255 : -(128 * 256 ^ (32 - 1) : Int) = -(2 ^ 255) := by norm_num
  have hk : (BigInt.to_signed_bytes_le v).length ≤ 32 :=
    to_signed_length_le v 32 (by norm_num) (by rw [h255]; exact hlo)
      (by have : (0 : Int) < 128 * 256 ^ (32 - 1) := by positivity
          omega)
  rw [BigInt.to_signed_u256]
  rw [if_pos hv, if_pos hk, U256.from_little_endian, if_pos (by
    rw [List.length_append, List.length_replicate]
    omega)]
  congr 1
  rw [ofDigits_append_replicate_255, to_signed_bytes_le_val_neg v hv]
  have hmP := natAbs_le_pow_len v hv
  have hQ1 : (1 : Nat) ≤ 256 ^ (32 - (BigInt.to_signed_bytes_le v).length) :=
    Nat.one_le_pow _ _ (by norm_num)
  have hMS : 256 ^ (BigInt.to_signed_bytes_le v).length *
      (256 ^ (32 - (BigInt.to_signed_bytes_le v).length) - 1) =
      256 ^ (BigInt.to_signed_bytes_le v).length *
        256 ^ (32 - (BigInt.to_signed_bytes_le v).length) -
        256 ^ (BigInt.to_signed_bytes_le v).length := by
    rw [show 256 ^ (32 - (BigInt.to_signed_bytes_le v).length) - 1 =
      Nat.pred (256 ^ (32 - (BigInt.to_signed_bytes_le v).length)) from rfl]
    exact Nat.mul_pred _ _
  have hPQ : 256 ^ (BigInt.to_signed_bytes_le v).length *
      256 ^ (32 - (BigInt.to_signed_bytes_le v).length) = 2 ^ 256 := by
    rw [← pow_add, show (BigInt.to_signed_bytes_le v).length +
      (32 - (BigInt.to_signed_bytes_le v).length) = 32 by omega]
    norm_num
  rw [hMS, hPQ]
  have h2 : (2 : Int) ^ 255 ≤ 2 ^ 256 := by norm_num
  have h3 : ((2 ^ 256 : Nat) : Int) = 2 ^ 256 := by norm_num
  have h4 : (256 : Nat) ^ (BigInt.to_signed_bytes_le v).length ≤ 2 ^ 256 := by
    calc (256 : Nat) ^ (BigInt.to_signed_bytes_le v).length
        ≤ 256 ^ 32 := Nat.pow_le_pow_right (by norm_num) hk
      _ = 2 ^ 256 := by norm_num
  omega

/-- `BigInt::to_signed_u256` on a non-negative in-range value is the value. -/
theorem to_signed_u256_nonneg (v : Int) (hv : 0 ≤ v) (hhi : v < 2 ^ 255) :
    BigInt.to_signed_u256 v = some v.toNat := by
  have h255 : (128 * 256 ^ (32 - 1) : Int) = 2 ^ 255 := by norm_num
  have hk : (BigInt.to_signed_bytes_le v).length ≤ 32 :=
    to_signed_length_le v 32 (by norm_num)
      (by rw [show -(128 * 256 ^ (32 - 1) : Int) = -(2 ^ 255) by norm_num]
          have : (0 : Int) ≤ 2 ^ 255 := by positivity
          omega)
      (by rw [h255]; exact hhi)
  rw [BigInt.to_signed_u256]
  rw [if_neg (by omega), U256.from_little_endian, if_pos hk,
    to_signed_bytes_le_val_nonneg v hv]
  congr 1
  omega

/-- `BigInt::to_signed_u256` hits its assertion exactly when the
two's-complement encoding exceeds 32 bytes. -/
theorem to_signed_u256_none_iff (v : Int) :
    BigInt.to_signed_u256 v = none ↔
      32 < (BigInt.to_signed_bytes_le v).length := by
  rw [BigInt.to_signed_u256]
  split
  · split
    · rename_i h32
      rw [U256.from_little_endian, if_pos (by
        rw [List.length_append, List.length_replicate]
        omega)]
      simp
      omega
    · rename_i h32
      simp
      omega
  · rw [U256.from_little_endian]
    split
    · rename_i h32
      simp
      omega
    · rename_i h32
      simp
      omega

/-- `BigInt::to_unsigned_u256`: asserts non-negativity; in the unsigned
256-bit range it is the identity on the value. -/
theorem to_unsigned_u256_eq (v : Int) :
    BigInt.to_unsigned_u256 v =
      if 0 ≤ v ∧ v < 2 ^ 256 then some v.toNat else none := by
  rw [BigInt.to_unsigned_u256, BigInt.to_bytes_le]
  simp only
  by_cases hv : v < 0
  · rw [if_neg, if_neg (by omega)]
    rw [intSign, if_pos hv]
    simp
  · rw [if_pos (by
      rw [intSign, if_neg hv]
      split <;> simp)]
    rw [U256.from_little_endian]
    have hlen := magBytesLE_length_le_iff v 32 (by norm_num)
    have hcast : ((256 ^ 32 : Nat) : Int) = 2 ^ 256 := by norm_num
    by_cases hle : (magBytesLE v).length ≤ 32
    · rw [if_pos hle, if_pos]
      · rw [ofDigits_magBytesLE]
        congr 1
        omega
      · have h1 := hlen.mp hle
        have h2 : (v.natAbs : Int) < ((256 ^ 32 : Nat) : Int) := by
          exact_mod_cast h1
        omega
    · rw [if_neg hle, if_neg]
      intro hcon
      apply hle
      rw [hlen]
      have : (v.natAbs : Int) < ((256 ^ 32 : Nat) : Int) := by omega
      exact_mod_cast this

/-- `BigInt::from_unsigned_u256` recovers the mathematical value of any
256-bit quantity. -/
theorem from_unsigned_u256_eq (n : Nat) (h : n < 2 ^ 256) :
    BigInt.from_unsigned_u256 n = (n : Int) := by
  rw [BigInt.from_unsigned_u256, BigInt.from_unsigned_bytes_le,
    u256ToLittleEndianBytes, Nat.mod_eq_of_lt h,
    ofDigits_padRadixLE _ _ _ (by norm_num)]

/-- `BigInt::from_signed_u256` reads a 256-bit quantity as two's complement:
below `2^255` it is the value, at or above it the value minus `2^256`. -/
theorem from_signed_u256_eq (n : Nat) (h : n < 2 ^ 256) :
    BigInt.from_signed_u256 n =
      if n < 2 ^ 255 then (n : Int) else (n : Int) - 2 ^ 256 := by
  have h32 : n < 256 ^ 32 := by norm_num at h ⊢; omega
  have hlen : (padRadixLE 256 32 n).length = 32 :=
    padRadixLE_length _ _ _ (by norm_num) h32
  have hne : padRadixLE 256 32 n ≠ [] := by
    rw [← List.length_pos, hlen]
    norm_num
  have hval : Nat.ofDigits 256 (padRadixLE 256 32 n) = n :=
    ofDigits_padRadixLE _ _ _ (by norm_num)
  have hiff := getLastD_ge_128_iff (padRadixLE 256 32 n) hne
    (padRadixLE_lt _ _ _ (by norm_num))
  rw [hval, hlen] at hiff
  have h255 : (128 : Nat) * 256 ^ (32 - 1) = 2 ^ 255 := by norm_num
  rw [BigInt.from_signed_u256, u256ToLittleEndianBytes, Nat.mod_eq_of_lt h,
    BigInt.from_signed_bytes_le, hlen]
  by_cases hge : n < 2 ^ 255
  · rw [if_neg (by rw [hiff, h255]; omega), if_pos hge, hval]
  · rw [if_pos (by rw [hiff, h255]; omega), if_neg hge, hval]
    norm_num

/-! ## `BigDecimal` (`scalar.rs`): exact decimal wrapper

The library value is a pair of an unbounded mantissa `int_val` and an `i64`
`scale`; the mathematical value is `int_val * 10 ^ (-scale)`.  The wrapper
keeps every publicly observable value normalized through its `From`
conversion. -/

/-- State of the underlying exact-decimal value: mantissa and scale. -/
structure BigDecimal where
  intVal : Int
  scale : Int
deriving DecidableEq, Repr

/-- `BigDecimal::zero()`: the library zero, mantissa 0 at scale 0. -/
def BigDecimal.zero : BigDecimal :=
  ⟨0, 0⟩

/-- The mathematical value `int_val * 10^(-scale)` as a rational. -/
def BigDecimal.valQ (r : BigDecimal) : ℚ :=
  (r.intVal : ℚ) * (10 : ℚ) ^ (-r.scale)

/-- `to_radix_be(10)` of the library: big-endian decimal digits of the
magnitude, `[0]` for zero. -/
def toRadixBE10 (n : Nat) : List Nat :=
  if n = 0 then [0] else (radixLE 10 n).reverse

/-- `from_radix_be(_, digits, 10)` of the library (magnitude part). -/
def fromRadixBE10 (l : List Nat) : Nat :=
  Nat.ofDigits 10 l.reverse

/-- `BigDecimal::normalized` of `scalar.rs`: zero collapses to the canonical
zero; otherwise trailing zero decimal digits are stripped from the mantissa
and folded into the scale.  (The source's zero test `self ==
&BigDecimal::zero()` is the library's value equality, which holds exactly
when the mantissa is zero.) -/
def BigDecimal.normalized (r : BigDecimal) : BigDecimal :=
  if r.intVal = 0 then BigDecimal.zero
  else
    let digits := toRadixBE10 r.intVal.natAbs
    let trailing := (digits.reverse.takeWhile (fun d => d == 0)).length
    let digits2 := digits.take (digits.length - trailing)
    let mag : Int := (fromRadixBE10 digits2 : Nat)
    ⟨if r.intVal < 0 then -mag else mag, r.scale - trailing⟩

/-- `From<bigdecimal::BigDecimal> for BigDecimal`: wrap and normalize.  Every
public constructor and arithmetic operation of the wrapper returns through
this conversion. -/
def BigDecimal.fromInner (r : BigDecimal) : BigDecimal :=
  r.normalized

/-- `BigDecimal::new(digits, exp)`: the library constructor takes a scale,
the opposite of the power of ten, so `exp` is negated. -/
def BigDecimal.new (digits : Int) (exp : Int) : BigDecimal :=
  BigDecimal.fromInner ⟨digits, -exp⟩

/-- `BigDecimal::as_bigint_and_exponent`. -/
def BigDecimal.as_bigint_and_exponent (r : BigDecimal) : Int × Int :=
  (r.intVal, r.scale)

/-- `From<i32> / From<i64> / From<u64> for BigDecimal`: the library converts
a native integer to mantissa `n` at scale 0; the wrapper normalizes. -/
def BigDecimal.fromInt (n : Int) : BigDecimal :=
  BigDecimal.fromInner ⟨n, 0⟩

/-- Modelled from the spec: the exact-decimal library's addition (the library
crate is outside this repository).  "addition, subtraction, multiplication
are exact (no rounding) and total": operands are aligned to the larger scale
and mantissas added. -/
def rawAdd (a b : BigDecimal) : BigDecimal :=
  ⟨a.intVal * 10 ^ (max a.scale b.scale - a.scale).toNat +
      b.intVal * 10 ^ (max a.scale b.scale - b.scale).toNat,
    max a.scale b.scale⟩

/-- Modelled from the spec: the exact-decimal library's subtraction, exact,
aligned to the larger scale. -/
def rawSub (a b : BigDecimal) : BigDecimal :=
  ⟨a.intVal * 10 ^ (max a.scale b.scale - a.scale).toNat -
      b.intVal * 10 ^ (max a.scale b.scale - b.scale).toNat,
    max a.scale b.scale⟩

/-- Modelled from the spec: the exact-decimal library's multiplication,
exact; mantissas multiply and scales add. -/
def rawMul (a b : BigDecimal) : BigDecimal :=
  ⟨a.intVal * b.intVal, a.scale + b.scale⟩

/-- Modelled from the spec: the exact-decimal library's division computes
"an exact or library-default-precision quotient"; modelled as the quotient
truncated at the library default of 100 fractional digits.  The zero-divisor
check under verification lives in the wrapper, not here. -/
def rawDivApprox (a b : BigDecimal) : BigDecimal :=
  ⟨Int.tdiv (a.intVal * 10 ^ 100) b.intVal, a.scale - b.scale + 100⟩

/-- `Add for BigDecimal` of `scalar.rs`: library addition, then `Self::from`
(normalization). -/
def BigDecimal.add (a b : BigDecimal) : BigDecimal :=
  BigDecimal.fromInner (rawAdd a b)

/-- `Sub for BigDecimal`. -/
def BigDecimal.sub (a b : BigDecimal) : BigDecimal :=
  BigDecimal.fromInner (rawSub a b)

/-- `Mul for BigDecimal`. -/
def BigDecimal.mul (a b : BigDecimal) : BigDecimal :=
  BigDecimal.fromInner (rawMul a b)

/-- `Div for BigDecimal` of `scalar.rs`: the explicit check
`other == BigDecimal::from(0)` panics — modelled as `none`.  The library's
equality is value equality after scale alignment, and a value equals zero
exactly when its mantissa is zero (`valQ_eq_zero_iff` below), so the check
is embedded as the mantissa test.  A non-zero divisor wraps the library
quotient through `Self::from`. -/
def BigDecimal.div (a b : BigDecimal) : Option BigDecimal :=
  if b.intVal = 0 then none
  else some (BigDecimal.fromInner (rawDivApprox a b))

/-- A value is in canonical form: either the canonical zero, or a mantissa
not divisible by ten. -/
def BigDecimal.isNormalized (r : BigDecimal) : Prop :=
  (r.intVal = 0 ∧ r.scale = 0) ∨ ¬((10 : Int) ∣ r.intVal)

theorem getLast_eq_getLastD (l : List Nat) (h : l ≠ []) :
    l.getLast h = l.getLastD 0 := by
  rw [List.getLastD_eq_getLast?, List.getLast?_eq_getLast _ h, Option.getD_some]

theorem dropWhileZero_ne_nil (l : List Nat) (hlast : l.getLastD 0 ≠ 0) :
    l.dropWhile (fun d => d == 0) ≠ [] := by
  induction l using List.reverseRecOn with
  | nil => simp at hlast
  | append_singleton l a _ =>
    rw [List.getLastD_concat] at hlast
    rw [List.dropWhile_append]
    split
    · simp only [List.dropWhile_cons, List.dropWhile_nil]
      rw [if_neg (by simpa using hlast)]
      simp
    · simp

theorem dropWhileZero_getLastD (l : List Nat)
    (h2 : l.dropWhile (fun d => d == 0) ≠ []) :
    (l.dropWhile (fun d => d == 0)).getLastD 0 = l.getLastD 0 := by
  induction l using List.reverseRecOn with
  | nil => simp at h2
  | append_singleton l a _ =>
    rw [List.getLastD_concat, List.dropWhile_append]
    split
    · simp only [List.dropWhile_cons, List.dropWhile_nil]
      split
      · rw [List.dropWhile_append] at h2
        simp only [List.dropWhile_cons, List.dropWhile_nil] at h2
        rename_i hempty ha
        rw [if_pos ha] at h2
        rw [if_pos hempty] at h2
        simp at h2
      · simp
    · rw [List.getLastD_concat]

theorem head?_dropWhileZero (l : List Nat) :
    ∀ x, (l.dropWhile (fun d => d == 0)).head? = some x → x ≠ 0 := by
  induction l with
  | nil => simp
  | cons a l ih =>
    rw [List.dropWhile_cons]
    split
    · exact ih
    · rename_i ha
      intro x hx
      simp only [List.head?_cons, Option.some.injEq] at hx
      simp at ha
      omega

theorem normalized_spec (r : BigDecimal) (h : r.intVal ≠ 0) :
    ∃ t mag : Nat, mag ≠ 0 ∧ ¬(10 ∣ mag) ∧
      r.intVal.natAbs = 10 ^ t * mag ∧
      r.normalized = ⟨if r.intVal < 0 then -(mag : Int) else (mag : Int),
        r.scale - t⟩ := by
  have hn : r.intVal.natAbs ≠ 0 := by omega
  have hLEradix : radixLE 10 r.intVal.natAbs = Nat.digits 10 r.intVal.natAbs :=
    radixLE_eq_digits _ _ (by norm_num)
  set LE := Nat.digits 10 r.intVal.natAbs with hLE
  have hLEne : LE ≠ [] := by
    rw [hLE, Nat.digits_ne_nil_iff_ne_zero]
    exact hn
  have hLElast : LE.getLastD 0 ≠ 0 := by
    rw [← getLast_eq_getLastD LE hLEne]
    exact Nat.getLast_digit_ne_zero 10 hn
  have hLElt : ∀ d ∈ LE, d < 10 := fun d hd => Nat.digits_lt_base (by norm_num) hd
  set t := (LE.takeWhile (fun d => d == 0)).length with ht
  set LE2 := LE.dropWhile (fun d => d == 0) with hLE2
  have hsplit : LE.takeWhile (fun d => d == 0) ++ LE2 = LE :=
    List.takeWhile_append_dropWhile (fun d => d == 0) LE
  have htake : LE.takeWhile (fun d => d == 0) = List.replicate t 0 := by
    rw [ht]
    apply List.eq_replicate_of_mem
    intro b hb
    have := List.mem_takeWhile_imp hb
    simpa using this
  have hLE2ne : LE2 ≠ [] := dropWhileZero_ne_nil LE hLElast
  have hLE2last : LE2.getLastD 0 = LE.getLastD 0 :=
    dropWhileZero_getLastD LE hLE2ne
  have hLE2lt : ∀ d ∈ LE2, d < 10 := by
    intro d hd
    apply hLElt
    rw [← hsplit]
    exact List.mem_append.mpr (Or.inr hd)
  set mag := Nat.ofDigits 10 LE2 with hmag
  have hdig2 : Nat.digits 10 mag = LE2 :=
    Nat.digits_ofDigits 10 (by norm_num) LE2 hLE2lt (fun h2 => by
      rw [getLast_eq_getLastD LE2 h2, hLE2last]
      exact hLElast)
  have hmagne : mag ≠ 0 := by
    intro hc
    rw [hc] at hdig2
    simp only [Nat.digits_zero] at hdig2
    exact hLE2ne hdig2.symm
  have hndvd : ¬(10 ∣ mag) := by
    rw [Nat.dvd_iff_mod_eq_zero]
    have hd := Nat.digits_def' (by norm_num : 1 < 10) (Nat.pos_of_ne_zero hmagne)
    rw [hdig2] at hd
    have hh : LE2.head? = some (mag % 10) := by
      rw [← hdig2, Nat.digits_def' (by norm_num : 1 < 10)
        (Nat.pos_of_ne_zero hmagne)]
      rfl
    exact head?_dropWhileZero LE (mag % 10) hh
  have hfactor : r.intVal.natAbs = 10 ^ t * mag := by
    have hback := Nat.ofDigits_digits 10 r.intVal.natAbs
    rw [← hLE] at hback
    conv_lhs => rw [← hback]
    conv_lhs => rw [← hsplit]
    rw [Nat.ofDigits_append, htake, ofDigits_replicate_zero,
      List.length_replicate]
    simp [hmag]
  refine ⟨t, mag, hmagne, hndvd, hfactor, ?_⟩
  rw [BigDecimal.normalized, if_neg h]
  have hBE : toRadixBE10 r.intVal.natAbs = LE.reverse := by
    rw [toRadixBE10, if_neg hn, hLEradix]
  simp only [hBE, List.reverse_reverse]
  have hlen : LE.reverse.length - t = LE2.length := by
    have h1 : (LE.takeWhile (fun d => d == 0)).length + LE2.length =
        LE.length := by
      rw [← List.length_append, hsplit]
    rw [List.length_reverse]
    omega
  have hrevsplit : LE.reverse = LE2.reverse ++
      (LE.takeWhile (fun d => d == 0)).reverse := by
    rw [← List.reverse_append, hsplit]
  have htakeEq : LE.reverse.take (LE.reverse.length - t) = LE2.reverse := by
    rw [hlen]
    conv_lhs => rw [hrevsplit]
    exact List.take_left' (List.length_reverse _)
  rw [htakeEq, fromRadixBE10, List.reverse_reverse, ← hmag]

theorem normalized_zero_intVal (r : BigDecimal) (h : r.intVal = 0) :
    r.normalized = BigDecimal.zero := by
  rw [BigDecimal.normalized, if_pos h]

theorem normalized_isNormalized (r : BigDecimal) :
    r.normalized.isNormalized := by
  by_cases h : r.intVal = 0
  · rw [normalized_zero_intVal r h]
    exact Or.inl ⟨rfl, rfl⟩
  · obtain ⟨t, mag, hne, hdvd, _, hnorm⟩ := normalized_spec r h
    rw [hnorm]
    right
    simp only
    split
    · rw [Int.dvd_neg]
      intro hc
      exact hdvd (by exact_mod_cast hc)
    · intro hc
      exact hdvd (by exact_mod_cast hc)

theorem normalized_fixed (r : BigDecimal) (h : r.isNormalized) :
    r.normalized = r := by
  rcases h with ⟨h0, hs⟩ | hdvd
  · rw [normalized_zero_intVal r h0]
    obtain ⟨i, s⟩ := r
    simp only at h0 hs
    rw [h0, hs]
    rfl
  · have hne : r.intVal ≠ 0 := by
      intro hc
      exact hdvd (hc ▸ dvd_zero 10)
    obtain ⟨t, mag, hmagne, hmagdvd, hfac, hnorm⟩ := normalized_spec r hne
    have ht0 : t = 0 := by
      by_contra hts
      apply hdvd
      have hnat : (10 : Nat) ∣ r.intVal.natAbs := by
        rw [hfac]
        exact Dvd.dvd.mul_right (dvd_pow_self 10 hts) mag
      have h2 : ((10 : Int)).natAbs ∣ r.intVal.natAbs := by
        rw [show ((10 : Int)).natAbs = 10 from rfl]
        exact hnat
      exact Int.natAbs_dvd_natAbs.mp h2
    rw [hnorm, ht0]
    rw [ht0, pow_zero, one_mul] at hfac
    obtain ⟨i, s⟩ := r
    simp only at hfac ⊢
    congr 1
    · split <;> omega
    · omega

theorem normalized_idem (r : BigDecimal) :
    r.normalized.normalized = r.normalized :=
  normalized_fixed _ (normalized_isNormalized r)

theorem zpow_shift (s : Int) (t : Nat) :
    (10 : ℚ) ^ (-(s - (t : Int))) = (10 : ℚ) ^ t * (10 : ℚ) ^ (-s) := by
  rw [show -(s - (t : Int)) = (t : Int) + -s from by ring,
    zpow_add₀ (by norm_num : (10 : ℚ) ≠ 0), zpow_natCast]

theorem normalized_valQ (r : BigDecimal) : r.normalized.valQ = r.valQ := by
  by_cases h : r.intVal = 0
  · rw [normalized_zero_intVal r h, BigDecimal.valQ, BigDecimal.valQ, h]
    simp [BigDecimal.zero]
  · obtain ⟨t, mag, hmagne, _, hfac, hnorm⟩ := normalized_spec r h
    rw [hnorm, BigDecimal.valQ, BigDecimal.valQ]
    simp only
    have hval : r.intVal =
        if r.intVal < 0 then -(10 ^ t * mag : Int) else (10 ^ t * mag : Int) := by
      have hcast : (r.intVal.natAbs : Int) = (10 : Int) ^ t * mag := by
        rw [show ((10 : Int) ^ t * mag) = ((10 ^ t * mag : Nat) : Int) from by
          push_cast
          ring, ← hfac]
      split <;> omega
    conv_rhs => rw [hval]
    rw [zpow_shift]
    split
    · push_cast
      ring
    · push_cast
      ring

theorem valQ_eq_zero_iff (r : BigDecimal) : r.valQ = 0 ↔ r.intVal = 0 := by
  rw [BigDecimal.valQ]
  constructor
  · intro hz
    rcases mul_eq_zero.mp hz with h1 | h2
    · exact_mod_cast h1
    · exact absurd h2 (zpow_ne_zero _ (by norm_num))
  · intro h
    rw [h]
    simp

theorem valQ_cross (a b : BigDecimal) (hv : a.valQ = b.valQ)
    (hle : a.scale ≤ b.scale) :
    a.intVal * 10 ^ (b.scale - a.scale).toNat = b.intVal := by
  have h10 : (10 : ℚ) ≠ 0 := by norm_num
  rw [BigDecimal.valQ, BigDecimal.valQ] at hv
  have h2 : (a.intVal : ℚ) * (10 : ℚ) ^ (-a.scale) * (10 : ℚ) ^ b.scale =
      (b.intVal : ℚ) * (10 : ℚ) ^ (-b.scale) * (10 : ℚ) ^ b.scale := by
    rw [hv]
  rw [mul_assoc, mul_assoc, ← zpow_add₀ h10, ← zpow_add₀ h10,
    show -a.scale + b.scale = ((b.scale - a.scale).toNat : Int) from by omega,
    show -b.scale + b.scale = (0 : Int) from by ring, zpow_natCast,
    zpow_zero, mul_one] at h2
  exact_mod_cast h2

theorem normalized_unique (a b : BigDecimal) (ha : a.isNormalized)
    (hb : b.isNormalized) (hv : a.valQ = b.valQ) : a = b := by
  have hdvd_of : ∀ c d : BigDecimal, c.valQ = d.valQ → c.scale ≤ d.scale →
      c.intVal ≠ 0 → d.isNormalized → c.scale = d.scale ∧ c.intVal = d.intVal := by
    intro c d hcd hle hcz hdn
    have hcross := valQ_cross c d hcd hle
    by_cases hd0 : (d.scale - c.scale).toNat = 0
    · constructor
      · omega
      · rw [hd0, pow_zero, mul_one] at hcross
        exact hcross
    · exfalso
      have hdvd : (10 : Int) ∣ d.intVal := by
        rw [← hcross, show (d.scale - c.scale).toNat =
          ((d.scale - c.scale).toNat - 1) + 1 from by omega, pow_succ]
        exact ⟨c.intVal * 10 ^ ((d.scale - c.scale).toNat - 1), by ring⟩
      rcases hdn with ⟨hz, _⟩ | hnd
      · have : c.intVal * 10 ^ (d.scale - c.scale).toNat = 0 := hz ▸ hcross
        rcases mul_eq_zero.mp this with h1 | h2
        · exact hcz h1
        · exact absurd h2 (pow_ne_zero _ (by norm_num))
      · exact hnd hdvd
  by_cases haz : a.intVal = 0
  · have hbz : b.intVal = 0 := by
      rw [← valQ_eq_zero_iff, ← hv, valQ_eq_zero_iff]
      exact haz
    have has : a.scale = 0 := by
      rcases ha with ⟨_, h2⟩ | hd
      · exact h2
      · exact absurd (haz ▸ dvd_zero 10) hd
    have hbs : b.scale = 0 := by
      rcases hb with ⟨_, h2⟩ | hd
      · exact h2
      · exact absurd (hbz ▸ dvd_zero 10) hd
    obtain ⟨ai, as⟩ := a
    obtain ⟨bi, bs⟩ := b
    simp_all
  · have hbz : b.intVal ≠ 0 := by
      intro hc
      apply haz
      rw [← valQ_eq_zero_iff, hv, valQ_eq_zero_iff]
      exact hc
    rcases le_total a.scale b.scale with hle | hle
    · obtain ⟨h1, h2⟩ := hdvd_of a b hv hle haz hb
      obtain ⟨ai, as⟩ := a
      obtain ⟨bi, bs⟩ := b
      simp_all
    · obtain ⟨h1, h2⟩ := hdvd_of b a hv.symm hle hbz ha
      obtain ⟨ai, as⟩ := a
      obtain ⟨bi, bs⟩ := b
      simp_all

/-- Decimal digit characters of `n` (the big-integer library's
`to_str_radix(10)`), `"0"` for zero. -/
def natToDecimalChars (n : Nat) : List Char :=
  if n = 0 then ['0'] else (radixLE 10 n).reverse.map Nat.digitChar

/-- Modelled from the spec: the exact-decimal library's `Display` (the crate
is outside this repository; the spec fixes it as "standard decimal notation
… the underlying exact-decimal library's canonical string form").  The
absolute digit string is split around the decimal point by the scale: a scale
at least the digit count yields `0.` with zero filler, a non-positive scale
appends zeros, and an interior scale splits the digits; a `-` sign is
prefixed for a negative mantissa. -/
def BigDecimal.toChars (r : BigDecimal) : List Char :=
  let absStr := natToDecimalChars r.intVal.natAbs
  let core :=
    if (absStr.length : Int) ≤ r.scale then
      '0' :: '.' ::
        (List.replicate (r.scale - absStr.length).toNat '0' ++ absStr)
    else
      if (absStr.length : Int) < (absStr.length : Int) - r.scale then
        absStr ++
          List.replicate ((absStr.length : Int) - r.scale - absStr.length).toNat '0'
      else
        let before := absStr.take ((absStr.length : Int) - r.scale).toNat
        let after := absStr.drop ((absStr.length : Int) - r.scale).toNat
        if after = [] then before else before ++ '.' :: after
  if r.intVal < 0 then '-' :: core else core

/-! ## `Bytes` (`scalar.rs`): byte blob with hex textual form -/

/-- `hex::FromHexError`. -/
inductive FromHexError where
  | InvalidHexCharacter (c : Char) (index : Nat)
  | OddLength
  | InvalidStringLength
deriving DecidableEq, Repr

/-- `val` of the hex crate: the value of one hex digit character. -/
def hexVal (c : Char) : Option Nat :=
  if '0' ≤ c ∧ c ≤ '9' then some (c.toNat - '0'.toNat)
  else if 'a' ≤ c ∧ c ≤ 'f' then some (c.toNat - 'a'.toNat + 10)
  else if 'A' ≤ c ∧ c ≤ 'F' then some (c.toNat - 'A'.toNat + 10)
  else none

/-- The pair loop of `hex::decode`: each two characters become the byte
`hi << 4 | lo`, reporting the first invalid character with its index.  (A
trailing single character cannot occur: the caller has already rejected odd
lengths.) -/
def hexPairs : List Char → Nat → Except FromHexError (List Nat)
  | [], _ => .ok []
  | [_], _ => .ok []
  | c1 :: c2 :: rest, i =>
    match hexVal c1 with
    | none => .error (.InvalidHexCharacter c1 i)
    | some hi =>
      match hexVal c2 with
      | none => .error (.InvalidHexCharacter c2 (i + 1))
      | some lo =>
        match hexPairs rest (i + 2) with
        | .error e => .error e
        | .ok bs => .ok ((hi <<< 4 ||| lo) :: bs)

/-- `hex::decode`: odd input length fails, otherwise the pair loop runs. -/
def hexDecode (s : List Char) : Except FromHexError (List Nat) :=
  if s.length % 2 ≠ 0 then .error .OddLength else hexPairs s 0

/-- `str::trim_start_matches("0x")`: removes every leading occurrence of the
exact (case-sensitive) pattern `0x`. -/
def trimStart0x : List Char → List Char
  | c1 :: c2 :: rest =>
    if c1 = '0' ∧ c2 = 'x' then trimStart0x rest else c1 :: c2 :: rest
  | s => s

/-- `FromStr for Bytes`: strip leading `0x` matches, then hex-decode. -/
def Bytes.from_str (s : List Char) : Except FromHexError (List Nat) :=
  hexDecode (trimStart0x s)

/-- One byte as two lowercase hex digit characters (`hex::encode`). -/
def byteToHexChars (b : Nat) : List Char :=
  [Nat.digitChar (b / 16), Nat.digitChar (b % 16)]

/-- `hex::encode`: lowercase hex digits of every byte. -/
def hexEncode (bs : List Nat) : List Char :=
  (bs.map byteToHexChars).join

/-- `Display for Bytes`: `0x` followed by the lowercase hex digits. -/
def Bytes.display (bs : List Nat) : List Char :=
  '0' :: 'x' :: hexEncode bs

theorem digitChar_ne_x (n : Nat) : Nat.digitChar n ≠ 'x' := by
  rcases Nat.lt_or_ge n 16 with h | h
  · interval_cases n <;> decide
  · have hstar : Nat.digitChar n = '*' := by
      unfold Nat.digitChar
      iterate 16 rw [if_neg (by omega)]
    rw [hstar]
    decide

theorem hexVal_digitChar (d : Nat) (h : d < 16) :
    hexVal (Nat.digitChar d) = some d := by
  interval_cases d <;> rfl

theorem byte_hex_roundtrip (b : Nat) (h : b < 256) :
    (b / 16) <<< 4 ||| b % 16 = b := by
  have h16 : b % 16 < 2 ^ 4 := by
    have := Nat.mod_lt b (show 0 < 16 by norm_num)
    norm_num
    omega
  calc (b / 16) <<< 4 ||| b % 16
      = 2 ^ 4 * (b / 16) ||| b % 16 := by rw [Nat.shiftLeft_eq, Nat.mul_comm]
    _ = 2 ^ 4 * (b / 16) + b % 16 := (Nat.mul_add_lt_is_or h16 _).symm
    _ = b := by omega

theorem hexEncode_cons (b : Nat) (bs : List Nat) :
    hexEncode (b :: bs) =
      Nat.digitChar (b / 16) :: Nat.digitChar (b % 16) :: hexEncode bs := by
  simp [hexEncode, byteToHexChars]

theorem hexEncode_length (bs : List Nat) :
    (hexEncode bs).length = 2 * bs.length := by
  induction bs with
  | nil => rfl
  | cons b bs ih =>
    rw [hexEncode_cons]
    simp only [List.length_cons, ih]
    ring

theorem hexPairs_encode (bs : List Nat) :
    ∀ i, (∀ b ∈ bs, b < 256) → hexPairs (hexEncode bs) i = .ok bs := by
  induction bs with
  | nil =>
    intro i _
    rfl
  | cons b bs ih =>
    intro i h
    have hb : b < 256 := h b (by simp)
    rw [hexEncode_cons, hexPairs,
      hexVal_digitChar _ (by omega : b / 16 < 16),
      hexVal_digitChar _ (by omega : b % 16 < 16),
      ih (i + 2) (fun x hx => h x (List.mem_cons_of_mem _ hx))]
    change Except.ok (((b / 16) <<< 4 ||| b % 16) :: bs) = _
    rw [byte_hex_roundtrip b hb]

theorem trimStart0x_hexEncode (bs : List Nat) :
    trimStart0x (hexEncode bs) = hexEncode bs := by
  cases bs with
  | nil => rfl
  | cons b bs =>
    rw [hexEncode_cons, trimStart0x, if_neg]
    rintro ⟨_, h2⟩
    exact digitChar_ne_x (b % 16) h2

/-- Hex round trip: formatting then parsing recovers every byte sequence. -/
theorem bytes_hex_roundtrip (bs : List Nat) (h : ∀ b ∈ bs, b < 256) :
    Bytes.from_str (Bytes.display bs) = .ok bs := by
  rw [Bytes.display, Bytes.from_str,
    show trimStart0x ('0' :: 'x' :: hexEncode bs) = trimStart0x (hexEncode bs)
      from by rw [trimStart0x, if_pos ⟨rfl, rfl⟩],
    trimStart0x_hexEncode, hexDecode,
    if_neg (by rw [hexEncode_length]; omega), hexPairs_encode bs 0 h]

theorem hexPairs_error_iff (s : List Char) (i : Nat) :
    s.length % 2 = 0 →
      ((∃ e, hexPairs s i = .error e) ↔ ∃ c ∈ s, hexVal c = none) := by
  induction s, i using hexPairs.induct with
  | case1 i =>
    intro _
    simp [hexPairs]
  | case2 c i =>
    intro h
    simp at h
  | case3 c1 c2 rest i hc1 =>
    intro _
    simp only [hexPairs, hc1]
    constructor
    · intro _
      exact ⟨c1, by simp, hc1⟩
    · intro _
      exact ⟨.InvalidHexCharacter c1 i, rfl⟩
  | case4 c1 c2 rest i hi hc1 hc2 =>
    intro _
    simp only [hexPairs, hc1, hc2]
    constructor
    · intro _
      exact ⟨c2, by simp, hc2⟩
    · intro _
      exact ⟨.InvalidHexCharacter c2 (i + 1), rfl⟩
  | case5 c1 c2 rest i hi hc1 lo hc2 e herr ih =>
    intro heven
    have hr : rest.length % 2 = 0 := by
      simp only [List.length_cons] at heven
      omega
    simp only [hexPairs, hc1, hc2, herr]
    constructor
    · intro _
      obtain ⟨c, hc, hcv⟩ := (ih hr).mp ⟨e, herr⟩
      exact ⟨c, by simp [hc], hcv⟩
    · intro _
      exact ⟨e, rfl⟩
  | case6 c1 c2 rest i hi hc1 lo hc2 bs hok ih =>
    intro heven
    have hr : rest.length % 2 = 0 := by
      simp only [List.length_cons] at heven
      omega
    simp only [hexPairs, hc1, hc2, hok]
    constructor
    · intro ⟨e, he⟩
      simp at he
    · intro ⟨c, hc, hcv⟩
      rcases List.mem_cons.mp hc with rfl | hc'
      · rw [hc1] at hcv
        simp at hcv
      rcases List.mem_cons.mp hc' with rfl | hc''
      · rw [hc2] at hcv
        simp at hcv
      obtain ⟨e, he⟩ := (ih hr).mpr ⟨c, hc'', hcv⟩
      rw [hok] at he
      simp at he

/-- `Bytes` parsing fails exactly when, after stripping leading `0x` matches,
the remainder has odd length or contains a character that is not a hex
digit. -/
theorem bytes_from_str_error_iff (s : List Char) :
    (∃ e, Bytes.from_str s = .error e) ↔
      (trimStart0x s).length % 2 = 1 ∨
        ∃ c ∈ trimStart0x s, hexVal c = none := by
  rw [Bytes.from_str, hexDecode]
  by_cases hodd : (trimStart0x s).length % 2 ≠ 0
  · rw [if_pos hodd]
    constructor
    · intro _
      left
      omega
    · intro _
      exact ⟨.OddLength, rfl⟩
  · rw [if_neg hodd]
    push_neg at hodd
    rw [hexPairs_error_iff _ 0 hodd]
    constructor
    · intro h
      exact Or.inr h
    · intro h
      rcases h with h | h
      · omega
      · exact h

/-! ## The StableHash contract

The hashing engine itself is an external crate, out of scope by the spec;
only the feed handed to it matters.  A feed is modelled as the ordered list
of `(address, payload)` writes the engine receives, where an address is the
path of child indices from the root sequence number.  The engine's
canonicalization (documented by the spec's contract: a tagged payload of an
is-negative flag and trailing-zero-trimmed little-endian magnitude bytes,
with default values — cleared flags, empty payloads — feeding nothing) is
modelled by `boolFeed` / `writeFeed` / `asIntFeed` / `asBytesFeed`. -/

/-- A sequence number: its own address path plus the running child count. -/
structure HashSeq where
  path : List Nat
  count : Nat
deriving DecidableEq, Repr

/-- The root sequence number. -/
def HashSeq.root : HashSeq :=
  ⟨[], 0⟩

/-- The child sequence number handed out by `next_child`. -/
def HashSeq.child (s : HashSeq) : HashSeq :=
  ⟨s.path ++ [s.count], 0⟩

/-- The state of the sequence number after `next_child` advanced it; its own
address is unchanged. -/
def HashSeq.next (s : HashSeq) : HashSeq :=
  ⟨s.path, s.count + 1⟩

/-- An ordered list of (address, payload) writes. -/
abbrev Feed := List (List Nat × List Nat)

/-- Modelled from the spec: a raw engine write; an empty payload is a default
and feeds nothing. -/
def writeFeed (s : HashSeq) (bytes : List Nat) : Feed :=
  if bytes = [] then [] else [(s.path, bytes)]

/-- Modelled from the spec: the engine's boolean feed; a cleared flag is a
default and feeds nothing, a set flag writes a tag byte. -/
def boolFeed (b : Bool) (s : HashSeq) : Feed :=
  writeFeed s (if b then [1] else [])

/-- Modelled from the spec: the engine's `AsInt` helper feeds "a tagged
payload of (is-negative flag, little-endian unsigned magnitude bytes)" — the
flag at the first child address, the magnitude bytes with trailing zero bytes
trimmed at the sequence number's own address. -/
def asIntFeed (isNeg : Bool) (le : List Nat) (s : HashSeq) : Feed :=
  boolFeed isNeg s.child ++ writeFeed s.next (trimZeros le)

/-- Modelled from the spec: the engine's `AsBytes` helper feeds the raw byte
sequence as an opaque payload. -/
def asBytesFeed (bytes : List Nat) (s : HashSeq) : Feed :=
  writeFeed s bytes

/-- Modelled from the spec: the engine's feed of a native signed 32-bit
integer (sign flag and 4 magnitude bytes). -/
def i32Feed (v : Int) (s : HashSeq) : Feed :=
  asIntFeed (decide (v < 0)) (padRadixLE 256 4 (v.natAbs % 2 ^ 32)) s

/-- Modelled from the spec: the engine's feed of a native signed 64-bit
integer (sign flag and 8 magnitude bytes). -/
def i64Feed (v : Int) (s : HashSeq) : Feed :=
  asIntFeed (decide (v < 0)) (padRadixLE 256 8 (v.natAbs % 2 ^ 64)) s

/-- Modelled from the spec: the engine's feed of a native unsigned 64-bit
integer. -/
def u64Feed (n : Nat) (s : HashSeq) : Feed :=
  asIntFeed false (padRadixLE 256 8 (n % 2 ^ 64)) s

/-- `big_int_stable_hash` of `scalar.rs`: `AsInt` with the minus-sign flag
and the library magnitude bytes of `to_bytes_le`. -/
def bigIntStableHashFeed (v : Int) (s : HashSeq) : Feed :=
  asIntFeed (decide ((BigInt.to_bytes_le v).1 = BigIntSign.Minus))
    (BigInt.to_bytes_le v).2 s

/-- `StableHash for BigDecimal` of `scalar.rs`: the exponent of
`as_bigint_and_exponent` is fed as an `i64` at the first child, then the
mantissa through `big_int_stable_hash` at the advanced sequence number. -/
def bigDecimalStableHashFeed (r : BigDecimal) (s : HashSeq) : Feed :=
  i64Feed (r.as_bigint_and_exponent).2 s.child ++
    bigIntStableHashFeed (r.as_bigint_and_exponent).1 s.next

/-- `StableHash for Bytes` of `scalar.rs`: `AsBytes` of the owned bytes. -/
def bytesStableHashFeed (bs : List Nat) (s : HashSeq) : Feed :=
  asBytesFeed bs s

/-- The writes of a feed addressed at `a`. -/
def feedAt (F : Feed) (a : List Nat) : Feed :=
  F.filter (fun e => decide (e.1 = a))

theorem feedAt_append (A B : Feed) (a : List Nat) :
    feedAt (A ++ B) a = feedAt A a ++ feedAt B a := by
  rw [feedAt, feedAt, feedAt, List.filter_append]

theorem feedAt_writeFeed_self (s : HashSeq) (t : List Nat) :
    feedAt (writeFeed s t) s.path = writeFeed s t := by
  rw [writeFeed, feedAt]
  split
  · rfl
  · simp [List.filter]

theorem feedAt_writeFeed_ne (s : HashSeq) (t : List Nat) (a : List Nat)
    (h : s.path ≠ a) :
    feedAt (writeFeed s t) a = [] := by
  rw [writeFeed, feedAt]
  split
  · rfl
  · simp [List.filter, h]

theorem writeFeed_inj (s1 s2 : HashSeq) (t1 t2 : List Nat)
    (h : writeFeed s1 t1 = writeFeed s2 t2) : t1 = t2 := by
  rw [writeFeed, writeFeed] at h
  split at h <;> split at h <;> simp_all

theorem asIntFeed_inj (f1 f2 : Bool) (l1 l2 : List Nat) (s : HashSeq)
    (h : asIntFeed f1 l1 s = asIntFeed f2 l2 s) :
    f1 = f2 ∧ trimZeros l1 = trimZeros l2 := by
  have hca : s.child.path ≠ s.next.path := by
    simp [HashSeq.child, HashSeq.next]
  have hcb : s.next.path ≠ s.child.path := fun hc => hca hc.symm
  have h1 := congrArg (fun F => feedAt F s.child.path) h
  have h2 := congrArg (fun F => feedAt F s.next.path) h
  simp only [asIntFeed, boolFeed, feedAt_append] at h1 h2
  rw [feedAt_writeFeed_self, feedAt_writeFeed_self,
    feedAt_writeFeed_ne _ _ _ hcb, feedAt_writeFeed_ne _ _ _ hcb,
    List.append_nil, List.append_nil] at h1
  rw [feedAt_writeFeed_ne _ _ _ hca, feedAt_writeFeed_ne _ _ _ hca,
    feedAt_writeFeed_self, feedAt_writeFeed_self,
    List.nil_append, List.nil_append] at h2
  refine ⟨?_, writeFeed_inj _ _ _ _ h2⟩
  have := writeFeed_inj _ _ _ _ h1
  cases f1 <;> cases f2 <;> simp_all

theorem intSign_minus_iff (v : Int) :
    (BigInt.to_bytes_le v).1 = BigIntSign.Minus ↔ v < 0 := by
  rw [BigInt.to_bytes_le]
  simp only [intSign]
  constructor
  · intro h
    by_contra hc
    rw [if_neg hc] at h
    split at h <;> simp_all
  · intro h
    rw [if_pos h]

theorem trimZeros_magBytesLE (v : Int) :
    trimZeros (magBytesLE v) = natToBytesLE v.natAbs := by
  by_cases hv : v = 0
  · subst hv
    rfl
  · rw [magBytesLE, if_neg hv, natToBytesLE, trimZeros_radixLE _ _ (by norm_num)]

theorem natToBytesLE_inj (a b : Nat) (h : natToBytesLE a = natToBytesLE b) :
    a = b := by
  rw [natToBytesLE, natToBytesLE, radixLE_eq_digits _ _ (by norm_num),
    radixLE_eq_digits _ _ (by norm_num)] at h
  have := congrArg (Nat.ofDigits 256) h
  rwa [Nat.ofDigits_digits, Nat.ofDigits_digits] at this

theorem bigIntStableHashFeed_inj (x y : Int) (s : HashSeq)
    (h : bigIntStableHashFeed x s = bigIntStableHashFeed y s) : x = y := by
  obtain ⟨hf, ht⟩ := asIntFeed_inj _ _ _ _ _ h
  rw [BigInt.to_bytes_le, BigInt.to_bytes_le] at ht
  simp only at ht
  rw [trimZeros_magBytesLE, trimZeros_magBytesLE] at ht
  have habs := natToBytesLE_inj _ _ ht
  have hsign : x < 0 ↔ y < 0 := by
    rw [← intSign_minus_iff, ← intSign_minus_iff]
    constructor
    · intro hx
      have : decide ((BigInt.to_bytes_le x).1 = BigIntSign.Minus) = true := by
        simp [hx]
      rw [hf] at this
      simpa using this
    · intro hy
      have : decide ((BigInt.to_bytes_le y).1 = BigIntSign.Minus) = true := by
        simp [hy]
      rw [← hf] at this
      simpa using this
  omega

theorem i64Feed_inj (a b : Int) (s : HashSeq)
    (ha1 : -(2 ^ 63) ≤ a) (ha2 : a < 2 ^ 63)
    (hb1 : -(2 ^ 63) ≤ b) (hb2 : b < 2 ^ 63)
    (h : i64Feed a s = i64Feed b s) : a = b := by
  obtain ⟨hf, ht⟩ := asIntFeed_inj _ _ _ _ _ h
  rw [trimZeros_padRadixLE, trimZeros_padRadixLE,
    trimZeros_radixLE _ _ (by norm_num), trimZeros_radixLE _ _ (by norm_num)]
    at ht
  have hmods : a.natAbs % 2 ^ 64 = b.natAbs % 2 ^ 64 := by
    have h1 := congrArg (Nat.ofDigits 256) ht
    rwa [radixLE_eq_digits _ _ (by norm_num), radixLE_eq_digits _ _ (by norm_num),
      Nat.ofDigits_digits, Nat.ofDigits_digits] at h1
  have hc1 : ((2 : Int) ^ 63) = 9223372036854775808 := by norm_num
  have hc2 : ((2 : Nat) ^ 64) = 18446744073709551616 := by norm_num
  have hma : a.natAbs % 2 ^ 64 = a.natAbs := Nat.mod_eq_of_lt (by omega)
  have hmb : b.natAbs % 2 ^ 64 = b.natAbs := Nat.mod_eq_of_lt (by omega)
  have hsign : a < 0 ↔ b < 0 := by
    constructor
    · intro hx
      have h2 : decide (a < 0) = true := by simp [hx]
      rw [hf] at h2
      simpa using h2
    · intro hy
      have h2 : decide (b < 0) = true := by simp [hy]
      rw [← hf] at h2
      simpa using h2
  omega

theorem bigDecimalFeed_components (r1 r2 : BigDecimal) (s : HashSeq)
    (h : bigDecimalStableHashFeed r1 s = bigDecimalStableHashFeed r2 s) :
    i64Feed r1.scale s.child = i64Feed r2.scale s.child ∧
      bigIntStableHashFeed r1.intVal s.next =
        bigIntStableHashFeed r2.intVal s.next := by
  have ne21 : s.child.next.path ≠ s.child.child.path := by
    simp [HashSeq.child, HashSeq.next]
  have ne31 : s.next.child.path ≠ s.child.child.path := by
    simp [HashSeq.child, HashSeq.next]
  have ne41 : s.next.next.path ≠ s.child.child.path := by
    simp [HashSeq.child, HashSeq.next]
  have ne12 : s.child.child.path ≠ s.child.next.path := by
    simp [HashSeq.child, HashSeq.next]
  have ne32 : s.next.child.path ≠ s.child.next.path := by
    simp [HashSeq.child, HashSeq.next]
  have ne42 : s.next.next.path ≠ s.child.next.path := by
    simp [HashSeq.child, HashSeq.next]
  have ne13 : s.child.child.path ≠ s.next.child.path := by
    simp [HashSeq.child, HashSeq.next]
  have ne23 : s.child.next.path ≠ s.next.child.path := by
    simp [HashSeq.child, HashSeq.next]
  have ne43 : s.next.next.path ≠ s.next.child.path := by
    simp [HashSeq.child, HashSeq.next]
  have ne14 : s.child.child.path ≠ s.next.next.path := by
    simp [HashSeq.child, HashSeq.next]
  have ne24 : s.child.next.path ≠ s.next.next.path := by
    simp [HashSeq.child, HashSeq.next]
  have ne34 : s.next.child.path ≠ s.next.next.path := by
    simp [HashSeq.child, HashSeq.next]
  have h1 := congrArg (fun F => feedAt F s.child.child.path) h
  have h2 := congrArg (fun F => feedAt F s.child.next.path) h
  have h3 := congrArg (fun F => feedAt F s.next.child.path) h
  have h4 := congrArg (fun F => feedAt F s.next.next.path) h
  simp only [bigDecimalStableHashFeed, i64Feed, bigIntStableHashFeed,
    asIntFeed, boolFeed, BigDecimal.as_bigint_and_exponent, feedAt_append,
    List.append_assoc] at h1 h2 h3 h4
  rw [feedAt_writeFeed_self, feedAt_writeFeed_self,
    feedAt_writeFeed_ne _ _ _ ne21, feedAt_writeFeed_ne _ _ _ ne21,
    feedAt_writeFeed_ne _ _ _ ne31, feedAt_writeFeed_ne _ _ _ ne31,
    feedAt_writeFeed_ne _ _ _ ne41, feedAt_writeFeed_ne _ _ _ ne41] at h1
  rw [feedAt_writeFeed_self, feedAt_writeFeed_self,
    feedAt_writeFeed_ne _ _ _ ne12, feedAt_writeFeed_ne _ _ _ ne12,
    feedAt_writeFeed_ne _ _ _ ne32, feedAt_writeFeed_ne _ _ _ ne32,
    feedAt_writeFeed_ne _ _ _ ne42, feedAt_writeFeed_ne _ _ _ ne42] at h2
  rw [feedAt_writeFeed_self, feedAt_writeFeed_self,
    feedAt_writeFeed_ne _ _ _ ne13, feedAt_writeFeed_ne _ _ _ ne13,
    feedAt_writeFeed_ne _ _ _ ne23, feedAt_writeFeed_ne _ _ _ ne23,
    feedAt_writeFeed_ne _ _ _ ne43, feedAt_writeFeed_ne _ _ _ ne43] at h3
  rw [feedAt_writeFeed_self, feedAt_writeFeed_self,
    feedAt_writeFeed_ne _ _ _ ne14, feedAt_writeFeed_ne _ _ _ ne14,
    feedAt_writeFeed_ne _ _ _ ne24, feedAt_writeFeed_ne _ _ _ ne24,
    feedAt_writeFeed_ne _ _ _ ne34, feedAt_writeFeed_ne _ _ _ ne34] at h4
  simp only [List.append_nil, List.nil_append] at h1 h2 h3 h4
  constructor
  · rw [i64Feed, i64Feed, asIntFeed, asIntFeed, boolFeed, boolFeed]
    rw [h1, h2]
  · rw [bigIntStableHashFeed, bigIntStableHashFeed, asIntFeed, asIntFeed,
      boolFeed, boolFeed]
    rw [h3, h4]

theorem tmod_neg_left (m n : Nat) :
    Int.tmod (-(m : Int)) (n : Int) = -(Int.tmod (m : Int) (n : Int)) := by
  cases m with
  | zero => simp
  | succ k => rfl

theorem natAbs_tmod_eq (a b : Int) :
    (Int.tmod a b).natAbs = a.natAbs % b.natAbs := by
  have hbase : ∀ m n : Nat, (Int.tmod (m : Int) (n : Int)).natAbs = m % n := by
    intro m n
    rw [← Int.ofNat_tmod]
    exact Int.natAbs_ofNat _
  rcases Int.eq_nat_or_neg a with ⟨m, rfl | rfl⟩ <;>
    rcases Int.eq_nat_or_neg b with ⟨n, rfl | rfl⟩
  · simpa using hbase m n
  · rw [Int.tmod_neg]
    simpa using hbase m n
  · rw [tmod_neg_left, Int.natAbs_neg, Int.natAbs_neg]
    simpa using hbase m n
  · rw [Int.tmod_neg, tmod_neg_left, Int.natAbs_neg, Int.natAbs_neg]
    simpa using hbase m n

/-! ## The claims -/

/-- C1: the stable-hash feed of each scalar type is a pure function of the
mathematical value and injective on it: two `BigInt` values feed identically
exactly when they are the same integer; two publicly observable `BigDecimal`
values (normalized, with an `i64` scale) feed identically exactly when their
mathematical values coincide; two `Bytes` values feed identically exactly
when their byte contents coincide. -/
theorem stable_hash_feed_value_injective :
    (∀ (x y : Int) (s : HashSeq),
      bigIntStableHashFeed x s = bigIntStableHashFeed y s ↔ x = y) ∧
    (∀ (d1 d2 : BigDecimal) (s : HashSeq),
      d1.isNormalized → d2.isNormalized →
      -(2 ^ 63) ≤ d1.scale → d1.scale < 2 ^ 63 →
      -(2 ^ 63) ≤ d2.scale → d2.scale < 2 ^ 63 →
      (bigDecimalStableHashFeed d1 s = bigDecimalStableHashFeed d2 s ↔
        d1.valQ = d2.valQ)) ∧
    (∀ (b1 b2 : List Nat) (s : HashSeq),
      bytesStableHashFeed b1 s = bytesStableHashFeed b2 s ↔ b1 = b2) := by
  refine ⟨?_, ?_, ?_⟩
  · intro x y s
    constructor
    · exact bigIntStableHashFeed_inj x y s
    · rintro rfl
      rfl
  · intro d1 d2 s hn1 hn2 ha1 ha2 hb1 hb2
    constructor
    · intro h
      obtain ⟨hexp, hmant⟩ := bigDecimalFeed_components d1 d2 s h
      have hscale := i64Feed_inj _ _ _ ha1 ha2 hb1 hb2 hexp
      have hval := bigIntStableHashFeed_inj _ _ _ hmant
      have : d1 = d2 := by
        obtain ⟨i1, s1⟩ := d1
        obtain ⟨i2, s2⟩ := d2
        simp_all
      rw [this]
    · intro h
      rw [normalized_unique d1 d2 hn1 hn2 h]
  · intro b1 b2 s
    constructor
    · intro h
      exact writeFeed_inj _ _ _ _ h
    · rintro rfl
      rfl

/-- Witness for C1 at concrete inputs: the decimal `0.3` (mantissa 3,
scale 1) is normalized and in scale range, so the theorem applies to it. -/
theorem stable_hash_feed_value_injective_witness :
    bigDecimalStableHashFeed ⟨3, 1⟩ HashSeq.root =
        bigDecimalStableHashFeed ⟨3, 1⟩ HashSeq.root ↔
      BigDecimal.valQ ⟨3, 1⟩ = BigDecimal.valQ ⟨3, 1⟩ :=
  stable_hash_feed_value_injective.2.1 ⟨3, 1⟩ ⟨3, 1⟩ HashSeq.root
    (Or.inr (by decide)) (Or.inr (by decide)) (by norm_num) (by norm_num)
    (by norm_num) (by norm_num)

/-- C2 counterexample: the decimal built from the native integer 10 does NOT
feed the hash state like the plain integer 10 — normalization turns 10 into
mantissa 1 with a non-zero exponent, and the exponent is part of the feed, so
the feeds (hence the stable hashes the engine derives from them) differ.
This refutes the claim's "for small non-negative n" generality. -/
theorem stable_hash_decimal_uint_disagree_at_ten :
    BigDecimal.fromInt 10 = ⟨1, -1⟩ ∧
    bigDecimalStableHashFeed (BigDecimal.fromInt 10) HashSeq.root ≠
      u64Feed 10 HashSeq.root := by
  constructor
  · decide
  · decide

/-- C2 as amended: hash-feed agreement between `BigInt` and the plain
integer holds for 0, 1 and `2^20` (indeed the `BigInt` feed always matches),
and between `BigDecimal` and the plain integer for the representative values
0, 4 and `2^21` — non-negative integers whose decimal form has no trailing
zero digit, so normalization leaves the exponent at zero; the `BigInt` built
from the little-endian signed encoding of `-1` feeds like native `-1`. -/
theorem stable_hash_uint_agreement_amended :
    (bigIntStableHashFeed (BigInt.fromU64 0) HashSeq.root =
      i32Feed 0 HashSeq.root) ∧
    (bigIntStableHashFeed (BigInt.fromU64 1) HashSeq.root =
      i32Feed 1 HashSeq.root) ∧
    (bigIntStableHashFeed (BigInt.fromU64 (2 ^ 20)) HashSeq.root =
      u64Feed (2 ^ 20) HashSeq.root) ∧
    (bigDecimalStableHashFeed (BigDecimal.fromInt 0) HashSeq.root =
      i32Feed 0 HashSeq.root) ∧
    (bigDecimalStableHashFeed (BigDecimal.fromInt 4) HashSeq.root =
      i32Feed 4 HashSeq.root) ∧
    (bigDecimalStableHashFeed (BigDecimal.fromInt (2 ^ 21)) HashSeq.root =
      u64Feed (2 ^ 21) HashSeq.root) ∧
    (bigIntStableHashFeed (BigInt.from_signed_bytes_le [255, 255, 255, 255])
      HashSeq.root = i32Feed (-1) HashSeq.root) := by
  refine ⟨?_, ?_, ?_, ?_, ?_, ?_, ?_⟩ <;> decide

/-- C3: division by a zero-valued divisor is the fatal path (modelled as
`none`, the panic) for both numeric types, while for every non-zero divisor
`BigInt` division returns the toward-zero-truncated quotient and `%` the
matching remainder: `b * q + r = a`, `|q| = |a| / |b|` and
`|r| = |a| % |b|`. -/
theorem division_by_zero_fatal_and_truncating :
    (∀ a : Int, BigInt.div a 0 = none) ∧
    (∀ b : BigDecimal, b.valQ = 0 → ∀ d : BigDecimal,
      BigDecimal.div d b = none) ∧
    (∀ a b : Int, b ≠ 0 →
      BigInt.div a b = some (Int.tdiv a b) ∧
      BigInt.rem a b = some (Int.tmod a b) ∧
      b * Int.tdiv a b + Int.tmod a b = a ∧
      (Int.tdiv a b).natAbs = a.natAbs / b.natAbs ∧
      (Int.tmod a b).natAbs = a.natAbs % b.natAbs) := by
  refine ⟨?_, ?_, ?_⟩
  · intro a
    rw [BigInt.div, if_pos rfl]
  · intro b hb d
    rw [BigDecimal.div, if_pos ((valQ_eq_zero_iff b).mp hb)]
  · intro a b hb
    refine ⟨?_, ?_, Int.tdiv_add_tmod a b, Int.natAbs_tdiv a b,
      natAbs_tmod_eq a b⟩
    · rw [BigInt.div, if_neg hb]
    · rw [BigInt.rem, if_neg hb]

/-- Witness for C3 at concrete inputs: `7 / 2` and `7 % 2`, and division of
`3.5` by the zero-valued decimal `0 * 10^5`. -/
theorem division_by_zero_fatal_and_truncating_witness :
    BigInt.div 7 2 = some 3 ∧ BigInt.rem 7 2 = some 1 ∧
      BigDecimal.div ⟨35, 1⟩ ⟨0, -5⟩ = none := by
  refine ⟨?_, ?_, ?_⟩
  · rw [(division_by_zero_fatal_and_truncating.2.2 7 2 (by norm_num)).1]
    rfl
  · rw [(division_by_zero_fatal_and_truncating.2.2 7 2 (by norm_num)).2.1]
    rfl
  · exact division_by_zero_fatal_and_truncating.2.1 ⟨0, -5⟩
      (by rw [valQ_eq_zero_iff]) ⟨35, 1⟩

/-- C4: the signed 256-bit projection hits a fatal assertion exactly when the
two's-complement little-endian encoding exceeds 32 bytes, the encoding fits
in 32 bytes exactly on the intended domain `-2^255 ≤ v < 2^255`, and every
negative in-range value is emitted as its two's-complement bytes extended
with `0xff` filler bytes to the full width — i.e. the residue `v + 2^256`. -/
theorem to_signed_u256_range_and_sign_extension :
    ∀ v : Int,
      (BigInt.to_signed_u256 v = none ↔
        32 < (BigInt.to_signed_bytes_le v).length) ∧
      ((BigInt.to_signed_bytes_le v).length ≤ 32 ↔
        -(2 ^ 255) ≤ v ∧ v < 2 ^ 255) ∧
      (v < 0 → -(2 ^ 255) ≤ v →
        BigInt.to_signed_u256 v =
          some (Nat.ofDigits 256 (BigInt.to_signed_bytes_le v ++
            List.replicate (32 - (BigInt.to_signed_bytes_le v).length) 255)) ∧
        BigInt.to_signed_u256 v = some ((v + 2 ^ 256).toNat)) := by
  intro v
  have hiff : (BigInt.to_signed_bytes_le v).length ≤ 32 ↔
      -(2 ^ 255) ≤ v ∧ v < 2 ^ 255 := by
    constructor
    · intro h
      have hb := to_signed_length_bound v 32 (by norm_num) h
      constructor
      · rw [show -(2 ^ 255 : Int) = -(128 * 256 ^ (32 - 1)) from by norm_num]
        exact hb.1
      · rw [show (2 ^ 255 : Int) = 128 * 256 ^ (32 - 1) from by norm_num]
        exact hb.2
    · rintro ⟨h1, h2⟩
      refine to_signed_length_le v 32 (by norm_num) ?_ ?_
      · rw [show -(128 * 256 ^ (32 - 1) : Int) = -(2 ^ 255) from by norm_num]
        exact h1
      · rw [show (128 * 256 ^ (32 - 1) : Int) = 2 ^ 255 from by norm_num]
        exact h2
  refine ⟨to_signed_u256_none_iff v, hiff, ?_⟩
  intro hv hlo
  have hk : (BigInt.to_signed_bytes_le v).length ≤ 32 := by
    refine hiff.mpr ⟨hlo, ?_⟩
    have : (0 : Int) < 2 ^ 255 := by positivity
    omega
  constructor
  · rw [BigInt.to_signed_u256, if_pos hv, if_pos hk, U256.from_little_endian,
      if_pos (by rw [List.length_append, List.length_replicate]; omega)]
  · exact to_signed_u256_neg v hv hlo

/-- Witness for C4 at the concrete input `-1`: the projection is defined and
equals the two's-complement residue `2^256 - 1`. -/
theorem to_signed_u256_range_and_sign_extension_witness :
    BigInt.to_signed_u256 (-1) = some ((-1 + 2 ^ 256).toNat) :=
  ((to_signed_u256_range_and_sign_extension (-1)).2.2 (by norm_num)
    (by norm_num)).2

/-- C5: the recoverable `u64` narrowing returns `Negative` on every negative
value, `Overflow` exactly when a non-negative value's magnitude encoding
exceeds 8 bytes — that is, when the value reaches `2^64` — and the exact
mathematical value otherwise; it is a total function (no panic path). -/
theorem u64_try_from_trichotomy :
    ∀ v : Int,
      (v < 0 → u64TryFromBigInt v = .error .Negative) ∧
      (0 ≤ v →
        (8 < (BigInt.to_bytes_le v).2.length ↔ 2 ^ 64 ≤ v) ∧
        (2 ^ 64 ≤ v → u64TryFromBigInt v = .error .Overflow) ∧
        (v < 2 ^ 64 → u64TryFromBigInt v = .ok v.toNat)) := by
  intro v
  constructor
  · intro hv
    rw [u64TryFromBigInt_eq, if_pos hv]
  · intro hv
    have hc1 : ((2 : Int) ^ 64) = 18446744073709551616 := by norm_num
    have hc2 : ((256 : Nat) ^ 8) = 18446744073709551616 := by norm_num
    refine ⟨?_, ?_, ?_⟩
    · rw [BigInt.to_bytes_le]
      simp only
      rw [show (8 < (magBytesLE v).length ↔ ¬((magBytesLE v).length ≤ 8))
        from by omega, magBytesLE_length_le_iff v 8 (by norm_num)]
      constructor
      · intro h
        push_neg at h
        omega
      · intro h
        omega
    · intro h
      rw [u64TryFromBigInt_eq, if_neg (by omega), if_pos h]
    · intro h
      rw [u64TryFromBigInt_eq, if_neg (by omega), if_neg (by omega)]

/-- Witness for C5 at concrete inputs: `-3` is `Negative`, `2^64` is
`Overflow`, `12` converts. -/
theorem u64_try_from_trichotomy_witness :
    u64TryFromBigInt (-3) = .error .Negative ∧
      u64TryFromBigInt (2 ^ 64) = .error .Overflow ∧
      u64TryFromBigInt 12 = .ok 12 :=
  ⟨(u64_try_from_trichotomy (-3)).1 (by norm_num),
    ((u64_try_from_trichotomy (2 ^ 64)).2 (by norm_num)).2.1 (by norm_num),
    ((u64_try_from_trichotomy 12).2 (by norm_num)).2.2 (by norm_num)⟩

/-- C6: fixed-width binary round trips are the identity — `u64` through
`BigInt` and back, and signed / unsigned 256-bit binary forms for every
in-range value. -/
theorem fixed_width_roundtrips :
    (∀ n : Nat, n < 2 ^ 64 →
      BigInt.to_u64 (BigInt.fromU64 n) = some n) ∧
    (∀ v : Int, -(2 ^ 255) ≤ v → v < 2 ^ 255 →
      Option.map BigInt.from_signed_u256 (BigInt.to_signed_u256 v) =
        some v) ∧
    (∀ v : Int, 0 ≤ v → v < 2 ^ 256 →
      Option.map BigInt.from_unsigned_u256 (BigInt.to_unsigned_u256 v) =
        some v) := by
  refine ⟨?_, ?_, ?_⟩
  · intro n hn
    rw [BigInt.to_u64, u64TryFromBigInt_eq, BigInt.fromU64,
      if_neg (by omega), if_neg (by omega)]
    simp [Except.toOption]
  · intro v hlo hhi
    by_cases hv : v < 0
    · have hlt : (v + 2 ^ 256).toNat < 2 ^ 256 := by omega
      have hge : ¬((v + 2 ^ 256).toNat < 2 ^ 255) := by omega
      rw [to_signed_u256_neg v hv hlo, Option.map_some',
        from_signed_u256_eq _ hlt, if_neg hge]
      exact congrArg some (by omega)
    · have hlt : v.toNat < 2 ^ 256 := by omega
      have hlt2 : v.toNat < 2 ^ 255 := by omega
      rw [to_signed_u256_nonneg v (by omega) hhi, Option.map_some',
        from_signed_u256_eq _ hlt, if_pos hlt2]
      exact congrArg some (by omega)
  · intro v hlo hhi
    have hlt : v.toNat < 2 ^ 256 := by omega
    rw [to_unsigned_u256_eq, if_pos ⟨hlo, hhi⟩, Option.map_some',
      from_unsigned_u256_eq _ hlt]
    exact congrArg some (by omega)
/-- Witness for C6 at concrete inputs: `5` through `u64`, `-1` through the
signed form, `7` through the unsigned form. -/
theorem fixed_width_roundtrips_witness :
    BigInt.to_u64 (BigInt.fromU64 5) = some 5 ∧
      Option.map BigInt.from_signed_u256 (BigInt.to_signed_u256 (-1)) =
        some (-1) ∧
      Option.map BigInt.from_unsigned_u256 (BigInt.to_unsigned_u256 7) =
        some 7 :=
  ⟨fixed_width_roundtrips.1 5 (by norm_num),
    fixed_width_roundtrips.2.1 (-1) (by norm_num) (by norm_num),
    fixed_width_roundtrips.2.2 7 (by norm_num) (by norm_num)⟩

/-- C7: every publicly observable `BigDecimal` is normalized — the `From`
conversion every constructor and arithmetic operation returns through yields
a fixed point of `normalized`, as do `zero`, `new`, the native conversions
and the four arithmetic operations — and `normalized` is idempotent. -/
theorem bigdecimal_normalization_invariant :
    (∀ d : BigDecimal, d.normalized.normalized = d.normalized) ∧
    (∀ r : BigDecimal,
      (BigDecimal.fromInner r).normalized = BigDecimal.fromInner r) ∧
    BigDecimal.zero.normalized = BigDecimal.zero ∧
    (∀ d e : Int, (BigDecimal.new d e).normalized = BigDecimal.new d e) ∧
    (∀ n : Int, (BigDecimal.fromInt n).normalized = BigDecimal.fromInt n) ∧
    (∀ a b : BigDecimal,
      (BigDecimal.add a b).normalized = BigDecimal.add a b ∧
      (BigDecimal.sub a b).normalized = BigDecimal.sub a b ∧
      (BigDecimal.mul a b).normalized = BigDecimal.mul a b) ∧
    (∀ a b : BigDecimal, ∀ r ∈ BigDecimal.div a b,
      r.normalized = r) := by
  refine ⟨normalized_idem, normalized_idem, ?_, ?_, ?_, ?_, ?_⟩
  · exact normalized_fixed _ (Or.inl ⟨rfl, rfl⟩)
  · intro d e
    exact normalized_idem _
  · intro n
    exact normalized_idem _
  · intro a b
    exact ⟨normalized_idem _, normalized_idem _, normalized_idem _⟩
  · intro a b r hr
    rw [BigDecimal.div] at hr
    split at hr
    · simp at hr
    · simp only [Option.mem_def, Option.some.injEq] at hr
      rw [← hr]
      exact normalized_idem _

/-- Witness for C7 at a concrete input: the quotient of `1` by `3` is
returned normalized. -/
theorem bigdecimal_normalization_invariant_witness :
    ∃ r ∈ BigDecimal.div ⟨1, 0⟩ ⟨3, 0⟩, r.normalized = r := by
  refine ⟨BigDecimal.fromInner (rawDivApprox ⟨1, 0⟩ ⟨3, 0⟩), ?_, ?_⟩
  · rw [BigDecimal.div, if_neg (by norm_num)]
    rfl
  · exact bigdecimal_normalization_invariant.2.2.2.2.2.2 ⟨1, 0⟩ ⟨3, 0⟩ _
      (by rw [BigDecimal.div, if_neg (by norm_num)]; rfl)

/-- C8 counterexample: `BigDecimal::new(1324, 4)` renders as `"13240000"`,
not `"1324000000"` (the test uses mantissa 132400), and the wrapper's
`new(19, -2)` is the value `0.19`, not the raw library value with scale `-2`
(which is 1900) that the value `1,900,000 * 10^-3` normalizes to. -/
theorem decimal_string_fidelity_fails :
    (BigDecimal.new 1324 4).toChars = "13240000".toList ∧
    "13240000".toList ≠ "1324000000".toList ∧
    BigDecimal.new 19 (-2) ≠ BigDecimal.new 1900000 (-3) ∧
    (BigDecimal.new 19 (-2)).toChars = "0.19".toList := by
  exact ⟨rfl, by decide, by decide, rfl⟩

/-- C8 as amended to the code's test vectors: `new(132400, 4)` renders as
`"1324000000"`; the value with mantissa 1,900,000 and exponent `-3` equals
the raw library value with mantissa 19 and scale `-2` and renders as
`"1900"`; `new(10, -2)` renders as `"0.1"`; every zero-mantissa pair
normalizes to the canonical zero whatever the exponent, and renders as
`"0"`. -/
theorem decimal_string_fidelity_amended :
    (BigDecimal.new 132400 4).toChars = "1324000000".toList ∧
    BigDecimal.new 1900000 (-3) = BigDecimal.mk 19 (-2) ∧
    (BigDecimal.new 1900000 (-3)).toChars = "1900".toList ∧
    (BigDecimal.new 10 (-2)).toChars = "0.1".toList ∧
    (∀ e : Int, BigDecimal.new 0 e = BigDecimal.zero) ∧
    (∀ s : Int, (BigDecimal.mk 0 s).normalized = BigDecimal.zero) ∧
    BigDecimal.zero.toChars = "0".toList := by
  refine ⟨rfl, by decide, rfl, rfl, ?_, ?_, rfl⟩
  · intro e
    exact normalized_zero_intVal ⟨0, -e⟩ rfl
  · intro s
    exact normalized_zero_intVal ⟨0, s⟩ rfl

/-- C9 counterexample: prefix stripping is case-sensitive — `"0X1a2b"` is
rejected with an invalid-character error at the `X` rather than accepted —
and the stripping is repeated, so `"0x0x12"` parses even though its
remainder after one strip would contain non-hex characters. -/
theorem bytes_hex_prefix_case_sensitive :
    Bytes.from_str "0X1a2b".toList =
      .error (.InvalidHexCharacter 'X' 1) ∧
    Bytes.from_str "0X1a2b".toList ≠ .ok [26, 43] ∧
    Bytes.from_str "0x0x12".toList = .ok [18] := by
  refine ⟨rfl, ?_, rfl⟩
  intro h
  rw [show Bytes.from_str "0X1a2b".toList =
    Except.error (FromHexError.InvalidHexCharacter 'X' 1) from rfl] at h
  exact Except.noConfusion h

/-- C9 as amended: formatting always emits `0x` plus lowercase hex digits;
parsing strips leading case-sensitive `0x` matches (repeatedly, per the
trimming primitive), accepts `"0x1a2b"` and `"1A2B"` with either digit case,
fails exactly when the remainder after stripping has odd length or a non-hex
character, and parsing the formatted form recovers every byte sequence. -/
theorem bytes_hex_contract_amended :
    (∀ bs : List Nat, (∀ b ∈ bs, b < 256) →
      Bytes.from_str (Bytes.display bs) = .ok bs) ∧
    (∀ bs : List Nat, Bytes.display bs = '0' :: 'x' :: hexEncode bs) ∧
    (∀ bs : List Nat, (∀ b ∈ bs, b < 256) → ∀ c ∈ hexEncode bs,
      ('0' ≤ c ∧ c ≤ '9') ∨ ('a' ≤ c ∧ c ≤ 'f')) ∧
    Bytes.from_str "0x1a2b".toList = .ok [26, 43] ∧
    Bytes.from_str "1A2B".toList = .ok [26, 43] ∧
    (∀ s : List Char,
      (∃ e, Bytes.from_str s = .error e) ↔
        (trimStart0x s).length % 2 = 1 ∨
          ∃ c ∈ trimStart0x s, hexVal c = none) := by
  refine ⟨bytes_hex_roundtrip, fun bs => rfl, ?_, rfl, rfl,
    bytes_from_str_error_iff⟩
  intro bs hall c hc
  induction bs with
  | nil => simp [hexEncode] at hc
  | cons b bs ih =>
    rw [hexEncode_cons] at hc
    have hb : b < 256 := hall b (by simp)
    rcases List.mem_cons.mp hc with rfl | hc
    · have h16 : b / 16 < 16 := by omega
      interval_cases h2 : b / 16 <;> decide
    · rcases List.mem_cons.mp hc with rfl | hc2
      · have h16 : b % 16 < 16 := Nat.mod_lt _ (by norm_num)
        interval_cases h2 : b % 16 <;> decide
      · exact ih (fun x hx => hall x (List.mem_cons_of_mem _ hx)) hc2

/-- Witness for C9 at a concrete input: the bytes `[26, 43]` round-trip
through `0x1a2b`. -/
theorem bytes_hex_contract_amended_witness :
    Bytes.from_str (Bytes.display [26, 43]) = .ok [26, 43] :=
  bytes_hex_contract_amended.1 [26, 43] (by decide)

/-- C10: the deprecated `BigInt::to_u64` unwraps the recoverable conversion:
it panics (`none`) exactly when the value is negative or at least `2^64`,
and returns the mathematical value for every value in `[0, 2^64)`. -/
theorem to_u64_unwrap_panics_out_of_range :
    ∀ v : Int,
      (BigInt.to_u64 v = none ↔ v < 0 ∨ 2 ^ 64 ≤ v) ∧
      (0 ≤ v → v < 2 ^ 64 → BigInt.to_u64 v = some v.toNat) := by
  intro v
  constructor
  · rw [BigInt.to_u64, u64TryFromBigInt_eq]
    by_cases h1 : v < 0
    · rw [if_pos h1]
      simp [Except.toOption, h1]
    · rw [if_neg h1]
      by_cases h2 : (2 : Int) ^ 64 ≤ v
      · rw [if_pos h2]
        simp only [Except.toOption, true_iff]
        right
        exact le_trans (by norm_num) h2
      · rw [if_neg h2]
        simp only [Except.toOption]
        have h3 : (2 : Int) ^ 64 = 18446744073709551616 := by norm_num
        constructor
        · intro hc
          exact Option.noConfusion hc
        · intro hc
          omega
  · intro h1 h2
    rw [BigInt.to_u64, u64TryFromBigInt_eq, if_neg (by omega),
      if_neg (by omega)]
    rfl

/-- Witness for C10 at concrete inputs: `9` converts, applying the theorem's
in-range branch. -/
theorem to_u64_unwrap_panics_out_of_range_witness :
    BigInt.to_u64 9 = some 9 :=
  (to_u64_unwrap_panics_out_of_range 9).2 (by norm_num) (by norm_num)
